import Mathlib

/-!
# PackStream codec (go-packstream): shallow embedding and verification

This file embeds the PackStream encoder (`encoder.go`: `Marshal` / `Encoder.encode*`)
and decoder (`decoder.go`: `Unmarshal` / `decodeState`) in Lean 4 and proves the
spec's quantified properties against the embedding.

Conventions of the embedding:
* Bytes are `Nat` (kept `< 256` by construction on the encoder side and by
  well-formedness hypotheses where needed).
* Go byte slices / strings become `List Nat`.
* Go `int64` becomes `Int` (theorems carry the `[-2^63, 2^63)` range where the
  Go type enforces it); two's-complement wrapping is made explicit with `% 2^w`.
* The encoder is modelled in "writer style": each function returns the bytes it
  wrote to the underlying `io.Writer` so far *together with* an optional error,
  so that "no bytes were written when the error is returned" is expressible.
* The decoder is modelled over the remaining input list, threading the
  `decodeState.eos` flag explicitly, and uses a `fuel` parameter for
  termination (streamed containers loop until an end-of-stream marker); `fuel`
  is a pure termination device, and every theorem quantifies over all
  sufficiently large fuels.
-/

set_option maxRecDepth 8192

namespace Packstream

/-- The universal PackStream value domain (spec §3), as produced by generic
decoding into `interface{}` and accepted by `Marshal`:
nil, bool, int64, float64 (kept as its IEEE-754 bit pattern, since the codec
moves the 8 bytes of `math.Float64bits` verbatim), string, `[]byte`,
`[]interface{}`, `map[string]interface{}` (an association list whose key order
models Go's iteration order), and `Structure{Signature, Fields}`. -/
inductive Value where
  | null : Value
  | bool (b : Bool) : Value
  | int (n : Int) : Value
  | float (bits : Nat) : Value
  | str (s : List Nat) : Value
  | bytes (p : List Nat) : Value
  | list (xs : List Value) : Value
  | map (ps : List (List Nat × Value)) : Value
  | struct (sig : Nat) (fields : List Value) : Value

/-- Whether a value is the nil/null value (as an `interface{}`, a decoded wire
null is a nil interface). -/
def Value.isNull : Value → Bool
  | .null => true
  | _ => false

/-- Marshal-side errors: `ErrMarshalTypeError` and `ErrMarshalValueTooLarge`. -/
inductive MErr where
  | typeError : MErr
  | valueTooLarge : MErr
  deriving DecidableEq, Repr

/-- Unmarshal-side errors: `io.EOF` (a short read, spec kind `Truncated`),
`ErrUnMarshalTypeError`, and the out-of-fuel marker of the embedding (never
produced at the fuels the theorems use). -/
inductive DErr where
  | truncated : DErr
  | typeError : DErr
  | fuelOut : DErr
  deriving DecidableEq, Repr

/-- Big-endian bytes of `x`, `w` bytes wide (low `8*w` bits of `x`), as written
by `binary.BigEndian.PutUint16/PutUint32` and `binary.Write(..., BigEndian, intN)`. -/
def beBytes : Nat → Nat → List Nat
  | 0, _ => []
  | w + 1, x => beBytes w (x / 256) ++ [x % 256]

/-- Big-endian reassembly of a byte list, as in `decodeState.readSize` and
`decodeState.unmarshalInt` (shift-or accumulation). -/
def beVal (p : List Nat) : Nat :=
  p.foldl (fun a b => a * 256 + b) 0

/-- Two's-complement representative of `n` in `bits` bits: the unsigned value
whose big-endian bytes Go writes for `intN(n)` / `byte(n)`. -/
def twos (bits : Nat) (n : Int) : Nat :=
  (n % ((2 : Int) ^ bits)).toNat

/-- Sign extension of a `bits`-bit unsigned value, as in the `int8(p[0])` /
`int16` / `int32` / `int64` reassembly of `decodeState.unmarshalInt`. -/
def signed (bits : Nat) (u : Nat) : Int :=
  if u < 2 ^ (bits - 1) then (u : Int) else (u : Int) - 2 ^ bits

/-! ## Marker constants (packstream.go) -/

def mNull : Nat := 0xC0
def mFloat64 : Nat := 0xC1
def mFalse : Nat := 0xC2
def mTrue : Nat := 0xC3
def mInt8 : Nat := 0xC8
def mInt16 : Nat := 0xC9
def mInt32 : Nat := 0xCA
def mInt64 : Nat := 0xCB
def mBytesSize8 : Nat := 0xCC
def mBytesSize16 : Nat := 0xCD
def mBytesSize32 : Nat := 0xCE
def mStringSize8 : Nat := 0xD0
def mStringSize16 : Nat := 0xD1
def mStringSize32 : Nat := 0xD2
def mListSize8 : Nat := 0xD4
def mListSize16 : Nat := 0xD5
def mListSize32 : Nat := 0xD6
def mListSizeStream : Nat := 0xD7
def mMapSize8 : Nat := 0xD8
def mMapSize16 : Nat := 0xD9
def mMapSize32 : Nat := 0xDA
def mMapSizeStream : Nat := 0xDB
def mStructSize8 : Nat := 0xDC
def mStructSize16 : Nat := 0xDD
def mEndOfStream : Nat := 0xDF

/-! ## Encoder (encoder.go), writer style

Each `encodeXxx` returns `(bytes written, optional error)`. `Marshal` wraps a
`bytes.Buffer`, so the written bytes are exactly the buffer contents. -/

/-- The five-band dispatch of `Encoder.encodeInt` after the signed/unsigned
normalisation: tiny, int8, int16, int32, int64 — first match wins.  The final
Go case `math.MinInt64 <= n && n <= math.MaxInt64` cannot fail for an `int64`;
outside that range the Go switch would fall through writing nothing, which the
last branch mirrors. -/
def encodeIntBand (n : Int) : List Nat × Option MErr :=
  if -16 ≤ n ∧ n ≤ 127 then
    ([twos 8 n], none)
  else if -128 ≤ n ∧ n < -16 then
    ([mInt8, twos 8 n], none)
  else if -32768 ≤ n ∧ n ≤ 32767 then
    (mInt16 :: beBytes 2 (twos 16 n), none)
  else if -(2 ^ 31) ≤ n ∧ n ≤ 2 ^ 31 - 1 then
    (mInt32 :: beBytes 4 (twos 32 n), none)
  else if -(2 ^ 63) ≤ n ∧ n ≤ 2 ^ 63 - 1 then
    (mInt64 :: beBytes 8 (twos 64 n), none)
  else ([], none)

/-- A Go integer source as seen by `Encoder.encodeInt`: one of the signed kinds
(read with `rv.Int()`) or one of the unsigned kinds (read with `rv.Uint()`,
rejected when above `math.MaxInt64`). -/
inductive GoInt where
  | signed (n : Int) : GoInt
  | unsigned (u : Nat) : GoInt

/-- `Encoder.encodeInt`. -/
def encodeInt : GoInt → List Nat × Option MErr
  | .signed n => encodeIntBand n
  | .unsigned u =>
    if u > 2 ^ 63 - 1 then ([], some .valueTooLarge)
    else encodeIntBand (u : Int)

/-- `Encoder.encodeString`: tiny marker `0x80|n`, else 8/16/32-bit size
prefix, else `ErrMarshalValueTooLarge` (the switch's `default`, reached before
any write). -/
def encodeString (s : List Nat) : List Nat × Option MErr :=
  if s.length < 16 then ((0x80 + s.length) :: s, none)
  else if s.length ≤ 255 then (mStringSize8 :: s.length :: s, none)
  else if s.length ≤ 65535 then (mStringSize16 :: beBytes 2 s.length ++ s, none)
  else if s.length ≤ 4294967295 then (mStringSize32 :: beBytes 4 s.length ++ s, none)
  else ([], some .valueTooLarge)

/-- `Encoder.encodeByteSlice`: no tiny form; 8/16/32-bit size prefix, else
`ErrMarshalValueTooLarge` before any write. -/
def encodeByteSlice (p : List Nat) : List Nat × Option MErr :=
  if p.length ≤ 255 then (mBytesSize8 :: p.length :: p, none)
  else if p.length ≤ 65535 then (mBytesSize16 :: beBytes 2 p.length ++ p, none)
  else if p.length ≤ 4294967295 then (mBytesSize32 :: beBytes 4 p.length ++ p, none)
  else ([], some .valueTooLarge)

/-- Size-class header of `Encoder.encodeList`: tiny `0x90|n`, `D4`, `D5`, `D6`,
else none (`ErrMarshalValueTooLarge`). -/
def listHeader (n : Nat) : Option (List Nat) :=
  if n < 16 then some [0x90 + n]
  else if n ≤ 255 then some [mListSize8, n]
  else if n ≤ 65535 then some (mListSize16 :: beBytes 2 n)
  else if n ≤ 4294967295 then some (mListSize32 :: beBytes 4 n)
  else none

/-- Size-class header of `Encoder.encodeMap`. -/
def mapHeader (n : Nat) : Option (List Nat) :=
  if n < 16 then some [0xA0 + n]
  else if n ≤ 255 then some [mMapSize8, n]
  else if n ≤ 65535 then some (mMapSize16 :: beBytes 2 n)
  else if n ≤ 4294967295 then some (mMapSize32 :: beBytes 4 n)
  else none

/-- Size-class header of `Encoder.encodeStruct`: tiny `0xB0|n`, `DC`, `DD`;
there is no 32-bit struct form, so a larger field count hits the switch's
`default` (`ErrMarshalValueTooLarge`) before any write. -/
def structHeader (n : Nat) : Option (List Nat) :=
  if n < 16 then some [0xB0 + n]
  else if n ≤ 255 then some [mStructSize8, n]
  else if n ≤ 65535 then some (mStructSize16 :: beBytes 2 n)
  else none

mutual

/-- `Encoder.encode` restricted to the universal value domain (the reflection
dispatch of encoder.go lines 62–118 collapsed onto `Value`'s constructors). -/
def encode : Value → List Nat × Option MErr
  | .null => ([mNull], none)
  | .bool b => (if b then [mTrue] else [mFalse], none)
  | .int n => encodeIntBand n
  | .float bits => (mFloat64 :: beBytes 8 bits, none)
  | .str s => encodeString s
  | .bytes p => encodeByteSlice p
  | .list xs =>
    match listHeader xs.length with
    | none => ([], some .valueTooLarge)
    | some h =>
      let q := encodeElems xs
      (h ++ q.1, q.2)
  | .map ps =>
    match mapHeader ps.length with
    | none => ([], some .valueTooLarge)
    | some h =>
      let q := encodePairs ps
      (h ++ q.1, q.2)
  | .struct sig fields =>
    match structHeader fields.length with
    | none => ([], some .valueTooLarge)
    | some h =>
      let q := encodeElems fields
      (h ++ [sig] ++ q.1, q.2)

/-- The element loop of `encodeList` / `encodeStruct`: encode each element in
order, stopping at (and keeping the bytes written before) the first error. -/
def encodeElems : List Value → List Nat × Option MErr
  | [] => ([], none)
  | x :: xs =>
    let p := encode x
    match p.2 with
    | some e => (p.1, some e)
    | none =>
      let q := encodeElems xs
      (p.1 ++ q.1, q.2)

/-- The pair loop of `encodeMap`: key (always a Go `string`, hence
`encodeString`) then value, for each entry in iteration order. -/
def encodePairs : List (List Nat × Value) → List Nat × Option MErr
  | [] => ([], none)
  | (k, v) :: ps =>
    let pk := encodeString k
    match pk.2 with
    | some e => (pk.1, some e)
    | none =>
      let pv := encode v
      match pv.2 with
      | some e => (pk.1 ++ pv.1, some e)
      | none =>
        let q := encodePairs ps
        (pk.1 ++ pv.1 ++ q.1, q.2)

end

/-! ## Decoder (decoder.go) -/

/-- `decodeState.readBytes` in in-memory (`d.bytes`) mode over the remaining
input: a short read yields `io.EOF` (`Truncated`). -/
def readBytes (s : Nat) (l : List Nat) : Except DErr (List Nat × List Nat) :=
  if l.length < s then .error .truncated
  else .ok (l.take s, l.drop s)

/-- One-byte read (`readMarker`, the struct signature byte). -/
def readByte (l : List Nat) : Except DErr (Nat × List Nat) :=
  match l with
  | [] => .error .truncated
  | b :: rest => .ok (b, rest)

/-- `decodeState.readSize`: read `w ∈ {1,2,4}` bytes, assemble big-endian. -/
def readSize (w : Nat) (l : List Nat) : Except DErr (Nat × List Nat) := do
  let (p, l1) ← readBytes w l
  .ok (beVal p, l1)

/-- The marker classification performed by `decodeState.value` (decoder.go
lines 216–257), in the source's order: `mNull` first, then the tiny
string/list/map/struct range `0x80..0xBF`, then the tiny-int test
`minTinyInt <= int8(marker)` (true exactly for `0x00..0x7F` and `0xF0..0xFF`),
then the switch cases; a byte matching nothing is reserved — the switch has no
default case.  `w` is the size-prefix / payload width in bytes. -/
inductive MClass where
  | null | tinyStr (n : Nat) | tinyList (n : Nat) | tinyMap (n : Nat) | tinyStruct (n : Nat)
  | tinyInt (v : Int)
  | sizedStr (w : Nat) | sizedList (w : Nat) | listStream
  | sizedMap (w : Nat) | mapStream
  | sizedStruct (w : Nat) | sizedBytes (w : Nat)
  | intN (w : Nat) | float | boolean (b : Bool)
  | endOfStream | reserved

def markerClass (m : Nat) : MClass :=
  if m = mNull then .null
  else if 0x80 ≤ m ∧ m ≤ 0x8F then .tinyStr (m - 0x80)
  else if 0x90 ≤ m ∧ m ≤ 0x9F then .tinyList (m - 0x90)
  else if 0xA0 ≤ m ∧ m ≤ 0xAF then .tinyMap (m - 0xA0)
  else if 0xB0 ≤ m ∧ m ≤ 0xBF then .tinyStruct (m - 0xB0)
  else if m ≤ 0x7F then .tinyInt (m : Int)
  else if 0xF0 ≤ m ∧ m ≤ 0xFF then .tinyInt ((m : Int) - 256)
  else if m = mStringSize8 then .sizedStr 1
  else if m = mStringSize16 then .sizedStr 2
  else if m = mStringSize32 then .sizedStr 4
  else if m = mListSize8 then .sizedList 1
  else if m = mListSize16 then .sizedList 2
  else if m = mListSize32 then .sizedList 4
  else if m = mListSizeStream then .listStream
  else if m = mMapSize8 then .sizedMap 1
  else if m = mMapSize16 then .sizedMap 2
  else if m = mMapSize32 then .sizedMap 4
  else if m = mMapSizeStream then .mapStream
  else if m = mStructSize8 then .sizedStruct 1
  else if m = mStructSize16 then .sizedStruct 2
  else if m = mBytesSize8 then .sizedBytes 1
  else if m = mBytesSize16 then .sizedBytes 2
  else if m = mBytesSize32 then .sizedBytes 4
  else if m = mInt8 then .intN 1
  else if m = mInt16 then .intN 2
  else if m = mInt32 then .intN 4
  else if m = mInt64 then .intN 8
  else if m = mFloat64 then .float
  else if m = mFalse then .boolean false
  else if m = mTrue then .boolean true
  else if m = mEndOfStream then .endOfStream
  else .reserved

/-- Outcome of one `decodeState.value` call on a generic (`*interface{}`)
target: either a value was stored, or nothing was stored (`DF`, which only
sets `d.eos`, and reserved markers, for which the switch silently does
nothing and `err` stays nil). -/
inductive DecOut where
  | val (v : Value) : DecOut
  | noval : DecOut

/-- The value stored in an `interface{}` slot after a `value` call: a `noval`
outcome leaves the slot at its zero value, a nil interface, which reads back
as `nil` (`Value.null`). -/
def DecOut.stored : DecOut → Value
  | .val v => v
  | .noval => .null

/-- The `value interface{}` variable of `unmarshalMap` after one value decode:
a wire null leaves it holding a nil interface (`unmarshalNull` sets the zero
value of the interface type), any other decoded value is stored, and a decode
that stored nothing (`DF`, reserved markers) leaves the previous contents.
`none` models the nil interface: `reflect.ValueOf` of it is the zero
`reflect.Value`, for which `SetMapIndex` deletes the key. -/
def storeVal : DecOut → Option Value → Option Value
  | .val .null, _ => none
  | .val v, _ => some v
  | .noval, sval => sval

/-- Go `map[string]interface{}` assignment `m[k] = v` (`reflect.Value.SetMapIndex`
with a valid element): update the entry in place, or append a new one. -/
def setIdx (m : List (List Nat × Value)) (k : List Nat) (v : Value) :
    List (List Nat × Value) :=
  match m with
  | [] => [(k, v)]
  | (k', v') :: t => if k' = k then (k, v) :: t else (k', v') :: setIdx t k v

/-- `reflect.Value.SetMapIndex` with the zero `reflect.Value` (which happens in
`unmarshalMap` when the `value` variable still holds a nil interface): deletes
the key. -/
def delIdx (m : List (List Nat × Value)) (k : List Nat) : List (List Nat × Value) :=
  match m with
  | [] => []
  | (k', v') :: t => if k' = k then t else (k', v') :: delIdx t k

/-- The `SetMapIndex` call of the pair loop, applied to `reflect.ValueOf(value)`:
set the entry when the `value` interface is non-nil, delete the key when it is
nil (`reflect.ValueOf` of a nil interface is the zero `reflect.Value`). -/
def applyIdx (m : List (List Nat × Value)) (k : List Nat) :
    Option Value → List (List Nat × Value)
  | some v => setIdx m k v
  | none => delIdx m k

/-- The key read of `unmarshalMap`: `d.unmarshal(&key)` with a `*string`
target.  Dispatch and byte consumption follow `decodeState.value` with a
string sink: null stores the zero string; string markers store the payload;
every other value-bearing marker is `ErrUnMarshalTypeError` — after consuming
its payload where the source reads the payload before the kind check
(the int bands `C8..CB` and float `C1`), and before reading anything where
the kind check comes first (bools, bytes, lists, maps, structs, tiny ints).
`DF` sets `eos` and stores nothing; reserved markers store nothing.
The first component is `some key` when a key was stored, `none` when the
`key` variable keeps its previous contents. -/
def readKey (eos : Bool) (l : List Nat) :
    Except DErr (Option (List Nat) × Bool × List Nat) :=
  match l with
  | [] => .error .truncated
  | m :: rest =>
    match markerClass m with
    | .null => .ok (some [], eos, rest)
    | .tinyStr n => do
      let (p, l1) ← readBytes n rest
      .ok (some p, eos, l1)
    | .sizedStr w => do
      let (s, l1) ← readSize w rest
      let (p, l2) ← readBytes s l1
      .ok (some p, eos, l2)
    | .intN w => do
      let (_, _) ← readBytes w rest
      .error .typeError
    | .float => do
      let (_, _) ← readBytes 8 rest
      .error .typeError
    | .tinyInt _ => .error .typeError
    | .boolean _ => .error .typeError
    | .sizedBytes _ => .error .typeError
    | .tinyList _ => .error .typeError
    | .sizedList _ => .error .typeError
    | .listStream => .error .typeError
    | .tinyMap _ => .error .typeError
    | .sizedMap _ => .error .typeError
    | .mapStream => .error .typeError
    | .tinyStruct _ => .error .typeError
    | .sizedStruct _ => .error .typeError
    | .endOfStream => .ok (none, true, rest)
    | .reserved => .ok (none, eos, rest)

mutual

/-- `decodeState.value` with a generic (`*interface{}`) target, threading the
remaining input and the `d.eos` flag.  `fuel` only bounds recursion depth. -/
def value (fuel : Nat) (eos : Bool) (l : List Nat) :
    Except DErr (DecOut × Bool × List Nat) :=
  match fuel with
  | 0 => .error .fuelOut
  | fuel + 1 =>
    match l with
    | [] => .error .truncated
    | m :: rest =>
      match markerClass m with
      | .null => .ok (.val .null, eos, rest)
      | .boolean b => .ok (.val (.bool b), eos, rest)
      | .tinyInt v => .ok (.val (.int v), eos, rest)
      | .intN w => do
        let (p, l1) ← readBytes w rest
        .ok (.val (.int (signed (8 * w) (beVal p))), eos, l1)
      | .float => do
        let (p, l1) ← readBytes 8 rest
        .ok (.val (.float (beVal p)), eos, l1)
      | .tinyStr n => do
        let (p, l1) ← readBytes n rest
        .ok (.val (.str p), eos, l1)
      | .sizedStr w => do
        let (s, l1) ← readSize w rest
        let (p, l2) ← readBytes s l1
        .ok (.val (.str p), eos, l2)
      | .sizedBytes w => do
        let (s, l1) ← readSize w rest
        let (p, l2) ← readBytes s l1
        .ok (.val (.bytes p), eos, l2)
      | .tinyList n => do
        let (xs, eos1, l1) ← sizedElems fuel eos n rest
        .ok (.val (.list xs), eos1, l1)
      | .sizedList w => do
        let (s, l1) ← readSize w rest
        let (xs, eos1, l2) ← sizedElems fuel eos s l1
        .ok (.val (.list xs), eos1, l2)
      | .listStream => do
        let (xs, eos1, l1) ← streamElems fuel eos rest
        .ok (.val (.list xs), eos1, l1)
      | .tinyMap n => do
        let (m', eos1, l1) ← mapPairs fuel false n [] none [] eos rest
        .ok (.val (.map m'), eos1, l1)
      | .sizedMap w => do
        let (s, l1) ← readSize w rest
        let (m', eos1, l2) ← mapPairs fuel false s [] none [] eos l1
        .ok (.val (.map m'), eos1, l2)
      | .mapStream => do
        let (m', eos1, l1) ← mapPairs fuel true 0 [] none [] eos rest
        .ok (.val (.map m'), eos1, l1)
      | .tinyStruct n => do
        let (sig, l1) ← readByte rest
        let (fs, eos1, l2) ← sizedElems fuel eos n l1
        .ok (.val (.struct sig fs), eos1, l2)
      | .sizedStruct w => do
        let (s, l1) ← readSize w rest
        let (sig, l2) ← readByte l1
        let (fs, eos1, l3) ← sizedElems fuel eos s l2
        .ok (.val (.struct sig fs), eos1, l3)
      | .endOfStream => .ok (.noval, true, rest)
      | .reserved => .ok (.noval, eos, rest)

/-- `unmarshalSizedList` on a freshly made `[]interface{}` of length `s` (also
the field loop of `unmarshalStruct`): decode each slot in order with `value`;
a slot whose decode stores nothing stays nil.  No `eos` check happens here —
the flag merely propagates. -/
def sizedElems (fuel : Nat) (eos : Bool) (s : Nat) (l : List Nat) :
    Except DErr (List Value × Bool × List Nat) :=
  match fuel with
  | 0 => .error .fuelOut
  | fuel + 1 =>
    match s with
    | 0 => .ok ([], eos, l)
    | s + 1 => do
      let (out, eos1, l1) ← value fuel eos l
      let (vs, eos2, l2) ← sizedElems fuel eos1 s l1
      .ok (out.stored :: vs, eos2, l2)

/-- `unmarshalStreamedList` on a `[]interface{}` target: decode into slot `i`,
then `if d.eos { d.eos = false; break }` — the slot decoded by the breaking
iteration is dropped by `adjustSliceLen` (it was never counted). -/
def streamElems (fuel : Nat) (eos : Bool) (l : List Nat) :
    Except DErr (List Value × Bool × List Nat) :=
  match fuel with
  | 0 => .error .fuelOut
  | fuel + 1 => do
    let (out, eos1, l1) ← value fuel eos l
    if eos1 then .ok ([], false, l1)
    else do
      let (vs, eos2, l2) ← streamElems fuel eos1 l1
      .ok (out.stored :: vs, eos2, l2)

/-- The pair loop of `unmarshalMap` (decoder.go lines 592–611), for both sized
(`isStream = false`, `count` pairs remain) and streamed maps.  It mirrors the
source exactly: the loop exit for sized maps is checked first; the `key` and
`value` variables persist across iterations (a decode that stores nothing
leaves the previous contents); `d.eos` is tested only after the key read (and
is *not* reset on break); and `SetMapIndex` deletes the key whenever `value`
holds a nil interface — both when no pair value was ever stored and when the
pair's wire value was null (`unmarshalNull` sets the variable to nil). -/
def mapPairs (fuel : Nat) (isStream : Bool) (count : Nat) (key : List Nat)
    (sval : Option Value) (m : List (List Nat × Value)) (eos : Bool)
    (l : List Nat) : Except DErr (List (List Nat × Value) × Bool × List Nat) :=
  match fuel with
  | 0 => .error .fuelOut
  | fuel + 1 =>
    if isStream = false ∧ count = 0 then .ok (m, eos, l)
    else do
      let (kout, eos1, l1) ← readKey eos l
      let key1 := kout.getD key
      if eos1 then .ok (m, eos1, l1)
      else do
        let (vout, eos2, l2) ← value fuel eos1 l1
        let sval1 := storeVal vout sval
        mapPairs fuel isStream (count - 1) key1 sval1 (applyIdx m key1 sval1) eos2 l2

end

/-- `decodeState.unmarshalMap` with a non-nil `map[string]interface{}` target
`m0` (entries are kept and merged into).  `marker` is the marker byte already
read by `value`; for a marker that is not a map marker the switch leaves
`s = 0, isStream = false` and zero pairs are read (unreachable from `value`). -/
def unmarshalMapInto (fuel : Nat) (m0 : List (List Nat × Value)) (marker : Nat)
    (eos : Bool) (l : List Nat) :
    Except DErr (List (List Nat × Value) × Bool × List Nat) :=
  if 0xA0 ≤ marker ∧ marker ≤ 0xAF then
    mapPairs fuel false (marker - 0xA0) [] none m0 eos l
  else if marker = mMapSize8 then do
    let (s, l1) ← readSize 1 l
    mapPairs fuel false s [] none m0 eos l1
  else if marker = mMapSize16 then do
    let (s, l1) ← readSize 2 l
    mapPairs fuel false s [] none m0 eos l1
  else if marker = mMapSize32 then do
    let (s, l1) ← readSize 4 l
    mapPairs fuel false s [] none m0 eos l1
  else if marker = mMapSizeStream then
    mapPairs fuel true 0 [] none m0 eos l
  else
    mapPairs fuel false 0 [] none m0 eos l

/-- The shape of the `v` passed to `Unmarshal(data, v)` / `Decoder.Decode(v)`,
as far as the guard in `decodeState.unmarshal` (decoder.go lines 167–170)
inspects it: not a pointer, a nil pointer, or a usable pointer to a generic
`interface{}` slot. -/
inductive Target where
  | notPointer : Target
  | nilPointer : Target
  | ptrInterface : Target

/-- `decodeState.unmarshal`: the reflection guard
`rv.Kind() != reflect.Ptr || rv.IsNil()` returns `ErrUnMarshalTypeError`
before any read; otherwise `d.value(rv)` runs on the (whole, untouched)
input.  The result carries the unconsumed suffix of the input. -/
def unmarshal (t : Target) (fuel : Nat) (data : List Nat) :
    Except DErr (DecOut × Bool × List Nat) :=
  match t with
  | .notPointer => .error .typeError
  | .nilPointer => .error .typeError
  | .ptrInterface => value fuel false data

/-! ## Well-formedness and decode fuel -/

/-- Pairwise distinctness of map keys (Go maps hold each key at most once). -/
def distinctKeys : List (List Nat × Value) → Bool
  | [] => true
  | (k, _) :: ps => decide (∀ q ∈ ps, q.1 ≠ k) && distinctKeys ps

mutual

/-- The supported domain of spec §3 restricted to what the Go types can hold:
`int64` range for integers, 64-bit patterns for floats, byte-valued payload
lists, the per-type size limits, a single-byte structure signature, and
(as for any Go map) pairwise-distinct map keys. -/
def wf : Value → Bool
  | .null => true
  | .bool _ => true
  | .int n => decide (-(2 ^ 63) ≤ n) && decide (n < 2 ^ 63)
  | .float bits => decide (bits < 2 ^ 64)
  | .str s => decide (s.length ≤ 4294967295) && s.all (· < 256)
  | .bytes p => decide (p.length ≤ 4294967295) && p.all (· < 256)
  | .list xs => decide (xs.length ≤ 4294967295) && wfElems xs
  | .map ps => decide (ps.length ≤ 4294967295) && distinctKeys ps && wfPairs ps
  | .struct sig fields =>
    decide (sig < 256) && decide (fields.length ≤ 65535) && wfElems fields

def wfElems : List Value → Bool
  | [] => true
  | x :: xs => wf x && wfElems xs

/-- Well-formedness of wire map pairs: string keys within the string limits and
well-formed values.  Duplicate keys are allowed here (the wire permits them);
`distinctKeys` is required separately for values of Go map origin. -/
def wfPairs : List (List Nat × Value) → Bool
  | [] => true
  | (k, v) :: ps =>
    decide (k.length ≤ 4294967295) && k.all (· < 256) && wf v && wfPairs ps

end

mutual

/-- Fuel sufficient to decode the encoding of a value (one unit per
`value` / element-loop / pair-loop call). -/
def cost : Value → Nat
  | .null => 1
  | .bool _ => 1
  | .int _ => 1
  | .float _ => 1
  | .str _ => 1
  | .bytes _ => 1
  | .list xs => 1 + costElems xs
  | .map ps => 1 + costPairs ps
  | .struct _ fields => 1 + costElems fields

def costElems : List Value → Nat
  | [] => 1
  | x :: xs => 1 + cost x + costElems xs

def costPairs : List (List Nat × Value) → Nat
  | [] => 1
  | (_, v) :: ps => 1 + cost v + costPairs ps

end

/-- Per-pair effect of the map pair loop on the sink when the pair's wire value
decoded to `v`: a null deletes the key (the `value` interface is left nil by
`unmarshalNull`, so `SetMapIndex` gets the zero `reflect.Value`), any other
value is set. -/
def mapStep (m : List (List Nat × Value)) (k : List Nat) : Value → List (List Nat × Value)
  | .null => delIdx m k
  | v => setIdx m k v

mutual

/-- The value a generic decode of `encode v` actually produces: identical to
`v` except that map pairs whose value is null are deleted rather than stored
(`SetMapIndex` is called while the `value` interface is nil). -/
def decImage : Value → Value
  | .null => .null
  | .bool b => .bool b
  | .int n => .int n
  | .float bits => .float bits
  | .str s => .str s
  | .bytes p => .bytes p
  | .list xs => .list (decImageElems xs)
  | .map ps => .map (decImagePairs ps [])
  | .struct sig fs => .struct sig (decImageElems fs)

def decImageElems : List Value → List Value
  | [] => []
  | x :: t => decImage x :: decImageElems t

/-- The pair-loop effect of decoding the encoding of `ps` into an initial
sink `m`. -/
def decImagePairs : List (List Nat × Value) → List (List Nat × Value) →
    List (List Nat × Value)
  | [], m => m
  | (k, v) :: t, m => decImagePairs t (mapStep m k (decImage v))

end

mutual

/-- No map anywhere inside `v` holds a pair whose value is null: the subdomain
on which the decoder's null-deletes-the-key behaviour never fires, so the
generic decode inverts the encoder exactly. -/
def noNull : Value → Bool
  | .list xs => noNullElems xs
  | .map ps => noNullPairs ps
  | .struct _ fs => noNullElems fs
  | _ => true

def noNullElems : List Value → Bool
  | [] => true
  | x :: t => noNull x && noNullElems t

def noNullPairs : List (List Nat × Value) → Bool
  | [] => true
  | (_, v) :: t => !v.isNull && noNull v && noNullPairs t

end

/-- Each pair's value contains no null-valued map entry inside it (the value
itself may be null): exactly the condition under which each wire value decodes
to itself, so the pair-loop effect on the sink is `mapStep` at the original
values. -/
def noNullPairsV : List (List Nat × Value) → Bool
  | [] => true
  | (_, v) :: t => noNull v && noNullPairsV t

/-! Sanity checks of the embedding against `validTestValues` from the
repository's tests (bytes ↔ decoded `interface{}` pairs). -/

example : encode (.int (-16)) = ([0xF0], none) := by rfl
example : encode (.int 127) = ([0x7F], none) := by rfl
example : encode (.int (-17)) = ([0xC8, 0xEF], none) := by rfl
example : encode (.int (-32768)) = ([0xC9, 0x80, 0x00], none) := by rfl
example : encode (.int 32767) = ([0xC9, 0x7F, 0xFF], none) := by rfl
example : encode (.int (-2147483649)) =
    ([0xCB, 0xFF, 0xFF, 0xFF, 0xFF, 0x7F, 0xFF, 0xFF, 0xFF], none) := by rfl
example : encode (.str [0x61]) = ([0x81, 0x61], none) := by rfl
example : encode (.bytes [1, 2, 3]) = ([0xCC, 0x03, 0x01, 0x02, 0x03], none) := by rfl
example : encode (.list [.int 42]) = ([0x91, 0x2A], none) := by rfl
example : encode (.map [([0x34, 0x32], .int 42)]) =
    ([0xA1, 0x82, 0x34, 0x32, 0x2A], none) := by rfl
example : encode (.struct 42 [.str [0x68, 0x65, 0x6C, 0x6C, 0x6F], .list [.int 55]]) =
    ([0xB2, 0x2A, 0x85, 0x68, 0x65, 0x6C, 0x6C, 0x6F, 0x91, 0x37], none) := by rfl

example : value 9 false [0xC8, 0x80] = .ok (.val (.int (-128)), false, []) := by rfl
example : value 9 false [0xCA, 0x80, 0x00, 0x00, 0x00] =
    .ok (.val (.int (-2147483648)), false, []) := by rfl
example : value 9 false [0x91, 0x91, 0x85, 0x68, 0x65, 0x6C, 0x6C, 0x6F] =
    .ok (.val (.list [.list [.str [0x68, 0x65, 0x6C, 0x6C, 0x6F]]]), false, []) := by rfl
example : value 9 false [0xA1, 0x82, 0x34, 0x32, 0x2A] =
    .ok (.val (.map [([0x34, 0x32], .int 42)]), false, []) := by rfl
example : value 9 false [0xDC, 0x02, 0x2A, 0xC0, 0xC3] =
    .ok (.val (.struct 42 [.null, .bool true]), false, []) := by rfl
/- Streamed list `D7 2A 2B DF` ↔ `List[Int(42), Int(43)]` (spec §8). -/
example : value 9 false [0xD7, 0x2A, 0x2B, 0xDF] =
    .ok (.val (.list [.int 42, .int 43]), false, []) := by rfl
/- Streamed map ended by `DF` read at the key position. -/
example : value 9 false [0xDB, 0x81, 0x61, 0x2A, 0xDF] =
    .ok (.val (.map [([0x61], .int 42)]), true, []) := by rfl
/- A wire null at a map value position deletes the key: `SetMapIndex` is
called while the `value` variable holds a nil interface. -/
example : value 4 false [0xA1, 0x81, 0x61, 0xC0] =
    .ok (.val (.map []), false, []) := by rfl

/-! ## Byte-level helper lemmas -/

theorem beBytes_length (w x : Nat) : (beBytes w x).length = w := by
  induction w generalizing x with
  | zero => rfl
  | succ k ih => simp [beBytes, ih]

theorem beVal_append (l : List Nat) (b : Nat) : beVal (l ++ [b]) = beVal l * 256 + b := by
  simp [beVal, List.foldl_append]

theorem beVal_beBytes (w x : Nat) (h : x < 256 ^ w) : beVal (beBytes w x) = x := by
  induction w generalizing x with
  | zero =>
    simp [beBytes, beVal]
    omega
  | succ k ih =>
    rw [beBytes, beVal_append, ih (x / 256) (by rw [Nat.pow_succ] at h; omega)]
    omega

theorem readBytes_exact (w : Nat) (p l : List Nat) (h : p.length = w) :
    readBytes w (p ++ l) = .ok (p, l) := by
  unfold readBytes
  rw [if_neg (by simp [List.length_append]; omega)]
  subst h
  rw [List.take_left, List.drop_left]

theorem readBytes_short (w : Nat) (l : List Nat) (h : l.length < w) :
    readBytes w l = .error .truncated := by
  unfold readBytes
  rw [if_pos h]

theorem readSize_exact (w : Nat) (p l : List Nat) (h : p.length = w) :
    readSize w (p ++ l) = .ok (beVal p, l) := by
  unfold readSize
  rw [readBytes_exact w p l h]
  rfl

theorem readSize_short (w : Nat) (l : List Nat) (h : l.length < w) :
    readSize w l = .error .truncated := by
  unfold readSize
  rw [readBytes_short w l h]
  rfl

theorem twos_lt (bits : Nat) (n : Int) : ((twos bits n : Nat) : Int) < 2 ^ bits := by
  unfold twos
  have hM : (0 : Int) < 2 ^ bits := by positivity
  have hub : n % 2 ^ bits < 2 ^ bits := Int.emod_lt_of_pos n hM
  have h0 : (0 : Int) ≤ n % 2 ^ bits := Int.emod_nonneg n (by positivity)
  rw [Int.toNat_of_nonneg h0]
  exact hub

theorem signed_twos (bits : Nat) (n : Int) (hb : 0 < bits)
    (h1 : -(2 ^ (bits - 1)) ≤ n) (h2 : n < 2 ^ (bits - 1)) :
    signed bits (twos bits n) = n := by
  have hM : (0 : Int) < 2 ^ bits := by positivity
  have hsplit : (2 : Int) ^ bits = 2 * 2 ^ (bits - 1) := by
    conv_lhs => rw [show bits = bits - 1 + 1 from by omega]
    rw [pow_succ]; ring
  have h0 : (0 : Int) ≤ n % 2 ^ bits := Int.emod_nonneg n (by positivity)
  have hub : n % 2 ^ bits < 2 ^ bits := Int.emod_lt_of_pos n hM
  have hcases : n % 2 ^ bits = n ∨ n % 2 ^ bits = n + 2 ^ bits := by
    rcases le_or_lt 0 n with hn | hn
    · exact Or.inl (Int.emod_eq_of_lt hn (by linarith))
    · refine Or.inr ?_
      have he : (n + 2 ^ bits) % 2 ^ bits = n % 2 ^ bits := by
        simp
      rw [← he, Int.emod_eq_of_lt (by linarith) (by linarith)]
  have hcast : ((twos bits n : Nat) : Int) = n % 2 ^ bits := by
    unfold twos; exact Int.toNat_of_nonneg h0
  have hpow : (((2 : Nat) ^ (bits - 1) : Nat) : Int) = (2 : Int) ^ (bits - 1) := by
    push_cast; rfl
  unfold signed
  split_ifs with h
  · have hlt : n % 2 ^ bits < (2 : Int) ^ (bits - 1) := by
      rw [← hcast, ← hpow]; exact_mod_cast h
    rw [hcast]
    rcases hcases with he | he
    · exact he
    · linarith
  · have hge : (2 : Int) ^ (bits - 1) ≤ n % 2 ^ bits := by
      rw [← hcast, ← hpow]; exact_mod_cast Nat.le_of_not_lt h
    rw [hcast]
    rcases hcases with he | he
    · linarith
    · linarith

theorem twos_eq_of_nonneg (bits : Nat) (n : Int) (h0 : 0 ≤ n) (h1 : n < 2 ^ bits) :
    ((twos bits n : Nat) : Int) = n := by
  unfold twos
  rw [Int.emod_eq_of_lt h0 h1, Int.toNat_of_nonneg h0]

theorem twos_eq_of_neg (bits : Nat) (n : Int) (h0 : -(2 ^ bits) ≤ n) (h1 : n < 0) :
    ((twos bits n : Nat) : Int) = n + 2 ^ bits := by
  unfold twos
  have he : (n + 2 ^ bits) % 2 ^ bits = n % 2 ^ bits := by
    simp
  have hM : (0 : Int) < 2 ^ bits := by positivity
  rw [← he, Int.emod_eq_of_lt (by linarith) (by linarith),
    Int.toNat_of_nonneg (by linarith)]

/-! ## Marker classification lemmas -/

theorem markerClass_tinyStr (n : Nat) (h : n < 16) :
    markerClass (0x80 + n) = .tinyStr n := by
  unfold markerClass
  rw [if_neg (by unfold mNull; omega), if_pos (by omega : 0x80 ≤ 0x80 + n ∧ 0x80 + n ≤ 0x8F)]
  congr 1
  omega

theorem markerClass_tinyList (n : Nat) (h : n < 16) :
    markerClass (0x90 + n) = .tinyList n := by
  unfold markerClass
  rw [if_neg (by unfold mNull; omega), if_neg (by omega),
    if_pos (by omega : 0x90 ≤ 0x90 + n ∧ 0x90 + n ≤ 0x9F)]
  congr 1
  omega

theorem markerClass_tinyMap (n : Nat) (h : n < 16) :
    markerClass (0xA0 + n) = .tinyMap n := by
  unfold markerClass
  rw [if_neg (by unfold mNull; omega), if_neg (by omega), if_neg (by omega),
    if_pos (by omega : 0xA0 ≤ 0xA0 + n ∧ 0xA0 + n ≤ 0xAF)]
  congr 1
  omega

theorem markerClass_tinyStruct (n : Nat) (h : n < 16) :
    markerClass (0xB0 + n) = .tinyStruct n := by
  unfold markerClass
  rw [if_neg (by unfold mNull; omega), if_neg (by omega), if_neg (by omega),
    if_neg (by omega), if_pos (by omega : 0xB0 ≤ 0xB0 + n ∧ 0xB0 + n ≤ 0xBF)]
  congr 1
  omega

theorem markerClass_tinyIntLow (m : Nat) (h : m ≤ 0x7F) :
    markerClass m = .tinyInt (m : Int) := by
  unfold markerClass
  rw [if_neg (by unfold mNull; omega), if_neg (by omega), if_neg (by omega),
    if_neg (by omega), if_neg (by omega), if_pos h]

theorem markerClass_tinyIntHigh (m : Nat) (h1 : 0xF0 ≤ m) (h2 : m ≤ 0xFF) :
    markerClass m = .tinyInt ((m : Int) - 256) := by
  unfold markerClass
  rw [if_neg (by unfold mNull; omega), if_neg (by omega), if_neg (by omega),
    if_neg (by omega), if_neg (by omega), if_neg (by omega),
    if_pos (by omega : 0xF0 ≤ m ∧ m ≤ 0xFF)]

/-- The reserved marker set of spec §4.1: `C4..C7`, `CF`, `D3`, `DE`, `E0..EF`. -/
def reservedMarker (m : Nat) : Prop :=
  (0xC4 ≤ m ∧ m ≤ 0xC7) ∨ m = 0xCF ∨ m = 0xD3 ∨ m = 0xDE ∨ (0xE0 ≤ m ∧ m ≤ 0xEF)

instance (m : Nat) : Decidable (reservedMarker m) := by
  unfold reservedMarker
  infer_instance

theorem markerClass_reserved (m : Nat) (h : reservedMarker m) :
    markerClass m = .reserved := by
  unfold reservedMarker at h
  unfold markerClass mNull mFloat64 mFalse mTrue mInt8 mInt16 mInt32 mInt64
  unfold mBytesSize8 mBytesSize16 mBytesSize32 mStringSize8 mStringSize16 mStringSize32
  unfold mListSize8 mListSize16 mListSize32 mListSizeStream
  unfold mMapSize8 mMapSize16 mMapSize32 mMapSizeStream
  unfold mStructSize8 mStructSize16 mEndOfStream
  repeat rw [if_neg (by omega)]

/-! ## List prefix helper lemmas -/

theorem prefix_append_cases (a b l : List Nat) (h : l <+: a ++ b) :
    (l <+: a) ∨ ∃ l', l = a ++ l' ∧ l' <+: b := by
  induction a generalizing l with
  | nil => exact Or.inr ⟨l, rfl, by simpa using h⟩
  | cons x a' ih =>
    match l with
    | [] => exact Or.inl (List.nil_prefix)
    | y :: l₂ =>
      rw [List.cons_append, List.cons_prefix_cons] at h
      obtain ⟨rfl, h₂⟩ := h
      rcases ih l₂ h₂ with hc | ⟨l', rfl, hp⟩
      · exact Or.inl (by rw [List.cons_prefix_cons]; exact ⟨rfl, hc⟩)
      · exact Or.inr ⟨l', rfl, hp⟩

theorem prefix_of_short (a b l : List Nat) (h : l <+: a ++ b)
    (hl : l.length ≤ a.length) : l <+: a := by
  rcases prefix_append_cases a b l h with hc | ⟨l', rfl, _⟩
  · exact hc
  · have hlen : a.length + l'.length ≤ a.length := by
      simpa [List.length_append] using hl
    have hnil : l' = [] := List.length_eq_zero.mp (by omega)
    subst hnil
    simp

/-! ## Except bind reduction -/

@[simp]
theorem ebind_ok {α β : Type} (a : α) (f : α → Except DErr β) :
    (Except.ok a >>= f) = f a := rfl

@[simp]
theorem ebind_err {α β : Type} (e : DErr) (f : α → Except DErr β) :
    ((Except.error e : Except DErr α) >>= f) = .error e := rfl

@[simp]
theorem beVal_single (b : Nat) : beVal [b] = b := by
  simp [beVal]

/-! ## Header lemmas -/

theorem listHeader_ne_none (n : Nat) (h : n ≤ 4294967295) : listHeader n ≠ none := by
  unfold listHeader
  split_ifs <;> simp_all

theorem mapHeader_ne_none (n : Nat) (h : n ≤ 4294967295) : mapHeader n ≠ none := by
  unfold mapHeader
  split_ifs <;> simp_all

theorem structHeader_ne_none (n : Nat) (h : n ≤ 65535) : structHeader n ≠ none := by
  unfold structHeader
  split_ifs <;> simp_all

/-! ## The encoder succeeds on the well-formed domain -/

mutual

theorem encode_ok (v : Value) (hw : wf v = true) : (encode v).2 = none := by
  cases v with
  | null => rfl
  | bool b => cases b <;> rfl
  | int n =>
    show (encodeIntBand n).2 = none
    unfold encodeIntBand
    split_ifs <;> rfl
  | float bits => rfl
  | str s =>
    simp only [wf, Bool.and_eq_true, decide_eq_true_eq] at hw
    show (encodeString s).2 = none
    unfold encodeString
    split_ifs <;> first | rfl | omega
  | bytes p =>
    simp only [wf, Bool.and_eq_true, decide_eq_true_eq] at hw
    show (encodeByteSlice p).2 = none
    unfold encodeByteSlice
    split_ifs <;> first | rfl | omega
  | list xs =>
    simp only [wf, Bool.and_eq_true, decide_eq_true_eq] at hw
    simp only [encode]
    rcases hhd : listHeader xs.length with _ | hd
    · exact absurd hhd (listHeader_ne_none _ hw.1)
    · exact encodeElems_ok xs hw.2
  | map ps =>
    simp only [wf, Bool.and_eq_true, decide_eq_true_eq] at hw
    obtain ⟨⟨hlen, _⟩, hps⟩ := hw
    simp only [encode]
    rcases hhd : mapHeader ps.length with _ | hd
    · exact absurd hhd (mapHeader_ne_none _ hlen)
    · exact encodePairs_ok ps hps
  | struct sig fields =>
    simp only [wf, Bool.and_eq_true, decide_eq_true_eq] at hw
    obtain ⟨⟨hsig, hlen⟩, hfs⟩ := hw
    simp only [encode]
    rcases hhd : structHeader fields.length with _ | hd
    · exact absurd hhd (structHeader_ne_none _ hlen)
    · exact encodeElems_ok fields hfs

theorem encodeElems_ok (xs : List Value) (hw : wfElems xs = true) :
    (encodeElems xs).2 = none := by
  cases xs with
  | nil => rfl
  | cons x t =>
    simp only [wfElems, Bool.and_eq_true] at hw
    simp only [encodeElems]
    rw [encode_ok x hw.1]
    exact encodeElems_ok t hw.2

theorem encodePairs_ok (ps : List (List Nat × Value)) (hw : wfPairs ps = true) :
    (encodePairs ps).2 = none := by
  cases ps with
  | nil => rfl
  | cons q t =>
    obtain ⟨k, v⟩ := q
    simp only [wfPairs, Bool.and_eq_true, decide_eq_true_eq] at hw
    obtain ⟨⟨⟨hkl, hkb⟩, hv⟩, ht⟩ := hw
    simp only [encodePairs]
    have hk : (encodeString k).2 = none := by
      unfold encodeString
      split_ifs <;> first | rfl | omega
    rw [hk, encode_ok v hv]
    exact encodePairs_ok t ht

end

/-- Bytes-written projection of encodeElems, once elementwise success holds. -/
theorem encodeElems_cons (x : Value) (xs : List Value) (hx : (encode x).2 = none) :
    (encodeElems (x :: xs)).1 = (encode x).1 ++ (encodeElems xs).1 := by
  simp only [encodeElems]
  rw [hx]

theorem encodePairs_cons (k : List Nat) (v : Value) (ps : List (List Nat × Value))
    (hk : (encodeString k).2 = none) (hv : (encode v).2 = none) :
    (encodePairs ((k, v) :: ps)).1 =
      (encodeString k).1 ++ (encode v).1 ++ (encodePairs ps).1 := by
  simp only [encodePairs]
  rw [hk, hv]

/-! ## Association list lemmas (`SetMapIndex` semantics) -/

/-- Observation of the decoded map sink: the value at key `k` (Go `m[k]`). -/
def alookup (m : List (List Nat × Value)) (k : List Nat) : Option Value :=
  match m with
  | [] => none
  | (k', v) :: t => if k' = k then some v else alookup t k

theorem setIdx_of_not_mem (m : List (List Nat × Value)) (k : List Nat) (v : Value)
    (h : ∀ q ∈ m, q.1 ≠ k) : setIdx m k v = m ++ [(k, v)] := by
  induction m with
  | nil => rfl
  | cons q t ih =>
    obtain ⟨k', v'⟩ := q
    simp only [setIdx]
    rw [if_neg (h (k', v') (by simp)), ih (fun q hq => h q (by simp [hq]))]
    simp

theorem alookup_append (m1 m2 : List (List Nat × Value)) (k : List Nat) :
    alookup (m1 ++ m2) k = (alookup m1 k).orElse (fun _ => alookup m2 k) := by
  induction m1 with
  | nil => simp [alookup, Option.orElse]
  | cons q t ih =>
    obtain ⟨k', v'⟩ := q
    by_cases h : k' = k <;> simp [alookup, h, ih, Option.orElse]

theorem alookup_setIdx (m : List (List Nat × Value)) (k : List Nat) (v : Value)
    (k' : List Nat) :
    alookup (setIdx m k v) k' = if k = k' then some v else alookup m k' := by
  induction m with
  | nil => simp [setIdx, alookup]
  | cons q t ih =>
    obtain ⟨k₀, v₀⟩ := q
    simp only [setIdx]
    by_cases h0 : k₀ = k
    · rw [if_pos h0]
      subst h0
      by_cases h1 : k₀ = k'
      · subst h1
        simp [alookup]
      · simp [alookup, h1]
    · rw [if_neg h0]
      by_cases h1 : k₀ = k'
      · subst h1
        have h2 : ¬k = k₀ := fun he => h0 he.symm
        simp [alookup, h2]
      · simp [alookup, h1, ih]

theorem foldl_setIdx_eq_append (ps : List (List Nat × Value))
    (m0 : List (List Nat × Value)) (hd : distinctKeys ps = true)
    (hdisj : ∀ q ∈ m0, ∀ p ∈ ps, q.1 ≠ p.1) :
    ps.foldl (fun m q => setIdx m q.1 q.2) m0 = m0 ++ ps := by
  induction ps generalizing m0 with
  | nil => simp
  | cons q t ih =>
    obtain ⟨k, v⟩ := q
    simp only [distinctKeys, Bool.and_eq_true, decide_eq_true_eq] at hd
    simp only [List.foldl_cons]
    rw [setIdx_of_not_mem m0 k v (fun q hq => hdisj q hq (k, v) (by simp))]
    rw [ih (m0 ++ [(k, v)]) hd.2 ?_]
    · simp
    · intro q hq p hp
      rcases List.mem_append.mp hq with hq0 | hq1
      · exact hdisj q hq0 p (by simp [hp])
      · simp at hq1
        subst hq1
        exact fun he => (hd.1 p hp) he.symm

theorem alookup_foldl_setIdx (ps : List (List Nat × Value))
    (m0 : List (List Nat × Value)) (k : List Nat) :
    alookup (ps.foldl (fun m q => setIdx m q.1 q.2) m0) k =
      (alookup ps.reverse k).orElse (fun _ => alookup m0 k) := by
  induction ps generalizing m0 with
  | nil => simp [alookup, Option.orElse]
  | cons q t ih =>
    obtain ⟨k0, v0⟩ := q
    simp only [List.foldl_cons, List.reverse_cons]
    rw [ih (setIdx m0 k0 v0), alookup_append]
    cases h : alookup t.reverse k
    · by_cases hk : k0 = k <;>
        simp [Option.orElse, alookup, alookup_setIdx, hk]
    · simp [Option.orElse]

/-! ## Deletion semantics of `SetMapIndex` with a nil `value` interface -/

theorem applyIdx_storeVal (v : Value) (sval : Option Value)
    (m : List (List Nat × Value)) (k : List Nat) :
    applyIdx m k (storeVal (.val v) sval) = mapStep m k v := by
  cases v <;> rfl

theorem mapStep_not_null (m : List (List Nat × Value)) (k : List Nat) (v : Value)
    (hv : v.isNull = false) : mapStep m k v = setIdx m k v := by
  cases v <;> first | rfl | simp [Value.isNull] at hv

theorem mem_delIdx (m : List (List Nat × Value)) (k : List Nat)
    (q : List Nat × Value) (h : q ∈ delIdx m k) : q ∈ m := by
  induction m with
  | nil => simpa [delIdx] using h
  | cons p t ih =>
    obtain ⟨k', v'⟩ := p
    simp only [delIdx] at h
    by_cases hk : k' = k
    · rw [if_pos hk] at h
      exact List.mem_cons_of_mem _ h
    · rw [if_neg hk] at h
      rcases List.mem_cons.mp h with h0 | h1
      · subst h0
        exact List.mem_cons_self _ _
      · exact List.mem_cons_of_mem _ (ih h1)

theorem mem_setIdx (m : List (List Nat × Value)) (k : List Nat) (v : Value)
    (q : List Nat × Value) (h : q ∈ setIdx m k v) : q ∈ m ∨ q = (k, v) := by
  induction m with
  | nil =>
    simp only [setIdx, List.mem_singleton] at h
    exact Or.inr h
  | cons p t ih =>
    obtain ⟨k', v'⟩ := p
    simp only [setIdx] at h
    by_cases hk : k' = k
    · rw [if_pos hk] at h
      rcases List.mem_cons.mp h with h0 | h1
      · exact Or.inr h0
      · exact Or.inl (List.mem_cons_of_mem _ h1)
    · rw [if_neg hk] at h
      rcases List.mem_cons.mp h with h0 | h1
      · subst h0
        exact Or.inl (List.mem_cons_self _ _)
      · rcases ih h1 with h2 | h2
        · exact Or.inl (List.mem_cons_of_mem _ h2)
        · exact Or.inr h2

theorem distinctKeys_setIdx (m : List (List Nat × Value)) (k : List Nat) (v : Value)
    (h : distinctKeys m = true) : distinctKeys (setIdx m k v) = true := by
  induction m with
  | nil => simp [setIdx, distinctKeys]
  | cons p t ih =>
    obtain ⟨k', v'⟩ := p
    simp only [distinctKeys, Bool.and_eq_true, decide_eq_true_eq] at h
    obtain ⟨h1, h2⟩ := h
    simp only [setIdx]
    by_cases hk : k' = k
    · rw [if_pos hk]
      subst hk
      simp only [distinctKeys, Bool.and_eq_true, decide_eq_true_eq]
      exact ⟨h1, h2⟩
    · rw [if_neg hk]
      simp only [distinctKeys, Bool.and_eq_true, decide_eq_true_eq]
      refine ⟨fun q hq => ?_, ih h2⟩
      rcases mem_setIdx t k v q hq with h3 | h3
      · exact h1 q h3
      · subst h3
        exact fun he => hk he.symm

theorem distinctKeys_delIdx (m : List (List Nat × Value)) (k : List Nat)
    (h : distinctKeys m = true) : distinctKeys (delIdx m k) = true := by
  induction m with
  | nil => simp [delIdx, distinctKeys]
  | cons p t ih =>
    obtain ⟨k', v'⟩ := p
    simp only [distinctKeys, Bool.and_eq_true, decide_eq_true_eq] at h
    obtain ⟨h1, h2⟩ := h
    simp only [delIdx]
    by_cases hk : k' = k
    · rw [if_pos hk]
      exact h2
    · rw [if_neg hk]
      simp only [distinctKeys, Bool.and_eq_true, decide_eq_true_eq]
      exact ⟨fun q hq => h1 q (mem_delIdx t k q hq), ih h2⟩

theorem alookup_eq_none (m : List (List Nat × Value)) (k : List Nat)
    (h : ∀ q ∈ m, q.1 ≠ k) : alookup m k = none := by
  induction m with
  | nil => rfl
  | cons p t ih =>
    obtain ⟨k', v'⟩ := p
    simp only [alookup]
    rw [if_neg (h (k', v') (List.mem_cons_self _ _))]
    exact ih fun q hq => h q (List.mem_cons_of_mem _ hq)

theorem alookup_delIdx_self (m : List (List Nat × Value)) (k : List Nat)
    (h : distinctKeys m = true) : alookup (delIdx m k) k = none := by
  induction m with
  | nil => rfl
  | cons p t ih =>
    obtain ⟨k', v'⟩ := p
    simp only [distinctKeys, Bool.and_eq_true, decide_eq_true_eq] at h
    obtain ⟨h1, h2⟩ := h
    simp only [delIdx]
    by_cases hk : k' = k
    · rw [if_pos hk]
      subst hk
      exact alookup_eq_none t k' h1
    · rw [if_neg hk]
      simp only [alookup]
      rw [if_neg hk]
      exact ih h2

theorem alookup_delIdx_other (m : List (List Nat × Value)) (k k' : List Nat)
    (h : k ≠ k') : alookup (delIdx m k) k' = alookup m k' := by
  induction m with
  | nil => rfl
  | cons p t ih =>
    obtain ⟨k0, v0⟩ := p
    simp only [delIdx]
    by_cases hk : k0 = k
    · rw [if_pos hk]
      subst hk
      simp only [alookup]
      rw [if_neg h]
    · rw [if_neg hk]
      simp only [alookup]
      by_cases h2 : k0 = k'
      · rw [if_pos h2, if_pos h2]
      · rw [if_neg h2, if_neg h2]
        exact ih

/-- The value `m[k]` observed after the pair loop runs over wire pairs `ps`
into sink `m0`: the last wire occurrence of `k` wins; if that occurrence's
value is null the key is absent; a key never on the wire keeps its `m0`
binding. -/
def lastWireLookup (ps m0 : List (List Nat × Value)) (k : List Nat) :
    Option Value :=
  match alookup ps.reverse k with
  | some .null => none
  | some v => some v
  | none => alookup m0 k

theorem alookup_foldl_mapStep (ps m0 : List (List Nat × Value))
    (hm0 : distinctKeys m0 = true) (k : List Nat) :
    alookup (ps.foldl (fun m q => mapStep m q.1 q.2) m0) k =
      lastWireLookup ps m0 k := by
  induction ps generalizing m0 with
  | nil => simp [lastWireLookup, alookup]
  | cons q t ih =>
    obtain ⟨k0, v0⟩ := q
    have hm1 : distinctKeys (mapStep m0 k0 v0) = true := by
      cases v0 <;>
        first
          | exact distinctKeys_delIdx m0 k0 hm0
          | exact distinctKeys_setIdx m0 k0 _ hm0
    simp only [List.foldl_cons]
    rw [ih (mapStep m0 k0 v0) hm1]
    simp only [lastWireLookup, List.reverse_cons]
    rw [alookup_append]
    cases h : alookup t.reverse k with
    | some w =>
      simp only [Option.orElse]
      cases w <;> rfl
    | none =>
      simp only [Option.orElse, alookup]
      by_cases hk : k0 = k
      · subst hk
        cases v0 <;> simp [mapStep, alookup_setIdx, alookup_delIdx_self, hm0]
      · have hk2 : ¬k = k0 := fun he => hk he.symm
        cases v0 <;>
          simp [mapStep, alookup_setIdx, alookup_delIdx_other, hk, hk2]

/-! ## The decode image is the identity on the null-free-map domain -/

theorem decImagePairs_foldl (ps : List (List Nat × Value)) :
    ∀ m0, decImagePairs ps m0 =
      ps.foldl (fun m q => mapStep m q.1 (decImage q.2)) m0 := by
  induction ps with
  | nil =>
    intro m0
    rfl
  | cons q t ih =>
    obtain ⟨k, v⟩ := q
    intro m0
    simp only [decImagePairs, List.foldl_cons]
    exact ih _

mutual

theorem decImage_eq_self (v : Value) (hw : wf v = true) (hn : noNull v = true) :
    decImage v = v := by
  cases v with
  | null => rfl
  | bool b => rfl
  | int n => rfl
  | float bits => rfl
  | str s => rfl
  | bytes p => rfl
  | list xs =>
    simp only [wf, Bool.and_eq_true] at hw
    simp only [noNull] at hn
    simp only [decImage, decImageElems_eq_self xs hw.2 hn]
  | map ps =>
    simp only [wf, Bool.and_eq_true, decide_eq_true_eq] at hw
    simp only [noNull] at hn
    obtain ⟨⟨hlen, hdk⟩, hps⟩ := hw
    simp only [decImage]
    rw [decImagePairs_setIdx ps hps hn []]
    have := foldl_setIdx_eq_append ps [] hdk (by simp)
    simpa using this
  | struct sig fs =>
    simp only [wf, Bool.and_eq_true] at hw
    simp only [noNull] at hn
    simp only [decImage, decImageElems_eq_self fs hw.2 hn]

theorem decImageElems_eq_self (xs : List Value) (hw : wfElems xs = true)
    (hn : noNullElems xs = true) : decImageElems xs = xs := by
  cases xs with
  | nil => rfl
  | cons x t =>
    simp only [wfElems, Bool.and_eq_true] at hw
    simp only [noNullElems, Bool.and_eq_true] at hn
    simp only [decImageElems, decImage_eq_self x hw.1 hn.1,
      decImageElems_eq_self t hw.2 hn.2]

theorem decImagePairs_setIdx (ps : List (List Nat × Value)) (hw : wfPairs ps = true)
    (hn : noNullPairs ps = true) :
    ∀ m0, decImagePairs ps m0 = ps.foldl (fun m q => setIdx m q.1 q.2) m0 := by
  cases ps with
  | nil =>
    intro m0
    rfl
  | cons q t =>
    obtain ⟨k, v⟩ := q
    simp only [wfPairs, Bool.and_eq_true, decide_eq_true_eq] at hw
    simp only [noNullPairs, Bool.and_eq_true] at hn
    obtain ⟨⟨_, hv⟩, ht⟩ := hw
    obtain ⟨⟨hvn, hnv⟩, hnt⟩ := hn
    intro m0
    simp only [decImagePairs, List.foldl_cons]
    rw [decImage_eq_self v hv hnv, mapStep_not_null m0 k v (by simpa using hvn)]
    exact decImagePairs_setIdx t ht hnt (setIdx m0 k v)

end

theorem decImagePairs_eq_mapStep (ps : List (List Nat × Value))
    (hw : wfPairs ps = true) (hnn : noNullPairsV ps = true) :
    ∀ m0, decImagePairs ps m0 = ps.foldl (fun m q => mapStep m q.1 q.2) m0 := by
  induction ps with
  | nil =>
    intro m0
    rfl
  | cons q t ih =>
    obtain ⟨k, v⟩ := q
    simp only [wfPairs, Bool.and_eq_true, decide_eq_true_eq] at hw
    simp only [noNullPairsV, Bool.and_eq_true] at hnn
    intro m0
    simp only [decImagePairs, List.foldl_cons]
    rw [decImage_eq_self v hw.1.2 hnn.1]
    exact ih hw.2 hnn.2 _

/-! ## Size-prefixed payload reading -/

theorem readSize_one (b : Nat) (l : List Nat) : readSize 1 (b :: l) = .ok (b, l) := by
  have h : (b :: l) = [b] ++ l := by simp
  rw [h, readSize_exact 1 [b] l rfl, beVal_single]

/-- A strict prefix of `sizeB ++ payload` either makes the size read itself
fail short, or contains the whole size prefix and a strict prefix of the
payload. -/
theorem prefix_sized_split (w : Nat) (sizeB payload l : List Nat)
    (hwlen : sizeB.length = w)
    (hp : l <+: sizeB ++ payload) (hl : l.length < sizeB.length + payload.length) :
    readSize w l = .error .truncated ∨
      ∃ l₃, l = sizeB ++ l₃ ∧ l₃ <+: payload ∧ l₃.length < payload.length := by
  rcases prefix_append_cases sizeB payload l hp with hc | ⟨l₃, rfl, hp3⟩
  · rcases Nat.lt_or_ge l.length w with hlt | hge
    · exact Or.inl (readSize_short w l hlt)
    · have hle : l.length = sizeB.length := by
        have := hc.length_le
        omega
      have heq : l = sizeB := hc.eq_of_length hle
      subst heq
      refine Or.inr ⟨[], by simp, List.nil_prefix, ?_⟩
      simp only [List.length_nil]
      omega
  · refine Or.inr ⟨l₃, rfl, hp3, ?_⟩
    simp only [List.length_append] at hl
    omega

/-! ## Shape of `encodeString` per size class -/

theorem encodeString_tiny (s : List Nat) (h : s.length < 16) :
    encodeString s = ((0x80 + s.length) :: s, none) := by
  unfold encodeString
  rw [if_pos h]

theorem encodeString_s8 (s : List Nat) (h1 : 16 ≤ s.length) (h2 : s.length ≤ 255) :
    encodeString s = (mStringSize8 :: ([s.length] ++ s), none) := by
  unfold encodeString
  rw [if_neg (by omega), if_pos h2]
  simp

theorem encodeString_s16 (s : List Nat) (h1 : 255 < s.length) (h2 : s.length ≤ 65535) :
    encodeString s = (mStringSize16 :: (beBytes 2 s.length ++ s), none) := by
  unfold encodeString
  rw [if_neg (by omega), if_neg (by omega), if_pos h2]
  simp

theorem encodeString_s32 (s : List Nat) (h1 : 65535 < s.length)
    (h2 : s.length ≤ 4294967295) :
    encodeString s = (mStringSize32 :: (beBytes 4 s.length ++ s), none) := by
  unfold encodeString
  rw [if_neg (by omega), if_neg (by omega), if_neg (by omega), if_pos h2]
  simp

/-! ## Key decoding (`d.unmarshal(&key)`) on encoded strings -/

theorem readKey_enc (k rest : List Nat) (eos : Bool) (hk : k.length ≤ 4294967295) :
    readKey eos ((encodeString k).1 ++ rest) = .ok (some k, eos, rest) := by
  by_cases h1 : k.length < 16
  · rw [encodeString_tiny k h1]
    simp only [List.cons_append, readKey]
    rw [markerClass_tinyStr _ h1]
    simp [readBytes_exact k.length k rest rfl]
  · by_cases h2 : k.length ≤ 255
    · rw [encodeString_s8 k (by omega) h2]
      simp only [List.cons_append, List.singleton_append, readKey]
      have hmc : markerClass mStringSize8 = .sizedStr 1 := rfl
      rw [hmc]
      simp [readSize_one, readBytes_exact k.length k rest rfl]
    · by_cases h3 : k.length ≤ 65535
      · rw [encodeString_s16 k (by omega) h3]
        simp only [List.cons_append, List.append_assoc, readKey]
        have hmc : markerClass mStringSize16 = .sizedStr 2 := rfl
        rw [hmc]
        simp [readSize_exact 2 (beBytes 2 k.length) (k ++ rest) (beBytes_length 2 _),
          beVal_beBytes 2 k.length (by norm_num; omega),
          readBytes_exact k.length k rest rfl]
      · rw [encodeString_s32 k (by omega) hk]
        simp only [List.cons_append, List.append_assoc, readKey]
        have hmc : markerClass mStringSize32 = .sizedStr 4 := rfl
        rw [hmc]
        simp [readSize_exact 4 (beBytes 4 k.length) (k ++ rest) (beBytes_length 4 _),
          beVal_beBytes 4 k.length (by norm_num; omega),
          readBytes_exact k.length k rest rfl]

theorem readKey_trunc (k l : List Nat) (eos : Bool) (hk : k.length ≤ 4294967295)
    (hp : l <+: (encodeString k).1) (hl : l.length < (encodeString k).1.length) :
    readKey eos l = .error .truncated := by
  match l with
  | [] => rfl
  | m :: l₂ =>
    by_cases h1 : k.length < 16
    · rw [encodeString_tiny k h1] at hp hl
      rw [List.cons_prefix_cons] at hp
      obtain ⟨rfl, hp2⟩ := hp
      simp only [List.length_cons] at hl
      simp only [readKey]
      rw [markerClass_tinyStr _ h1]
      simp [readBytes_short k.length l₂ (by omega)]
    · by_cases h2 : k.length ≤ 255
      · rw [encodeString_s8 k (by omega) h2] at hp hl
        rw [List.cons_prefix_cons] at hp
        obtain ⟨rfl, hp2⟩ := hp
        simp at hl
        simp only [readKey]
        have hmc : markerClass mStringSize8 = .sizedStr 1 := rfl
        rw [hmc]
        rcases prefix_sized_split 1 [k.length] k l₂ rfl hp2 (by simp; omega)
          with hshort | ⟨l₃, rfl, hp3, hl3⟩
        · simp [hshort]
        · simp [readSize_one, readBytes_short k.length l₃ hl3]
      · by_cases h3 : k.length ≤ 65535
        · rw [encodeString_s16 k (by omega) h3] at hp hl
          rw [List.cons_prefix_cons] at hp
          obtain ⟨rfl, hp2⟩ := hp
          simp [beBytes_length] at hl
          simp only [readKey]
          have hmc : markerClass mStringSize16 = .sizedStr 2 := rfl
          rw [hmc]
          rcases prefix_sized_split 2 (beBytes 2 k.length) k l₂ (beBytes_length 2 _)
            hp2 (by rw [beBytes_length]; omega) with hshort | ⟨l₃, rfl, hp3, hl3⟩
          · simp [hshort]
          · simp [readSize_exact 2 (beBytes 2 k.length) l₃ (beBytes_length 2 _),
              beVal_beBytes 2 k.length (by norm_num; omega),
              readBytes_short k.length l₃ hl3]
        · rw [encodeString_s32 k (by omega) hk] at hp hl
          rw [List.cons_prefix_cons] at hp
          obtain ⟨rfl, hp2⟩ := hp
          simp [beBytes_length] at hl
          simp only [readKey]
          have hmc : markerClass mStringSize32 = .sizedStr 4 := rfl
          rw [hmc]
          rcases prefix_sized_split 4 (beBytes 4 k.length) k l₂ (beBytes_length 4 _)
            hp2 (by rw [beBytes_length]; omega) with hshort | ⟨l₃, rfl, hp3, hl3⟩
          · simp [hshort]
          · simp [readSize_exact 4 (beBytes 4 k.length) l₃ (beBytes_length 4 _),
              beVal_beBytes 4 k.length (by norm_num; omega),
              readBytes_short k.length l₃ hl3]

/-! ## Header shape lemmas -/

theorem listHeader_tiny (n : Nat) (h : n < 16) : listHeader n = some [0x90 + n] := by
  unfold listHeader
  rw [if_pos h]

theorem listHeader_s8 (n : Nat) (h1 : 16 ≤ n) (h2 : n ≤ 255) :
    listHeader n = some [mListSize8, n] := by
  unfold listHeader
  rw [if_neg (by omega), if_pos h2]

theorem listHeader_s16 (n : Nat) (h1 : 255 < n) (h2 : n ≤ 65535) :
    listHeader n = some (mListSize16 :: beBytes 2 n) := by
  unfold listHeader
  rw [if_neg (by omega), if_neg (by omega), if_pos h2]

theorem listHeader_s32 (n : Nat) (h1 : 65535 < n) (h2 : n ≤ 4294967295) :
    listHeader n = some (mListSize32 :: beBytes 4 n) := by
  unfold listHeader
  rw [if_neg (by omega), if_neg (by omega), if_neg (by omega), if_pos h2]

theorem mapHeader_tiny (n : Nat) (h : n < 16) : mapHeader n = some [0xA0 + n] := by
  unfold mapHeader
  rw [if_pos h]

theorem mapHeader_s8 (n : Nat) (h1 : 16 ≤ n) (h2 : n ≤ 255) :
    mapHeader n = some [mMapSize8, n] := by
  unfold mapHeader
  rw [if_neg (by omega), if_pos h2]

theorem mapHeader_s16 (n : Nat) (h1 : 255 < n) (h2 : n ≤ 65535) :
    mapHeader n = some (mMapSize16 :: beBytes 2 n) := by
  unfold mapHeader
  rw [if_neg (by omega), if_neg (by omega), if_pos h2]

theorem mapHeader_s32 (n : Nat) (h1 : 65535 < n) (h2 : n ≤ 4294967295) :
    mapHeader n = some (mMapSize32 :: beBytes 4 n) := by
  unfold mapHeader
  rw [if_neg (by omega), if_neg (by omega), if_neg (by omega), if_pos h2]

theorem structHeader_tiny (n : Nat) (h : n < 16) : structHeader n = some [0xB0 + n] := by
  unfold structHeader
  rw [if_pos h]

theorem structHeader_s8 (n : Nat) (h1 : 16 ≤ n) (h2 : n ≤ 255) :
    structHeader n = some [mStructSize8, n] := by
  unfold structHeader
  rw [if_neg (by omega), if_pos h2]

theorem structHeader_s16 (n : Nat) (h1 : 255 < n) (h2 : n ≤ 65535) :
    structHeader n = some (mStructSize16 :: beBytes 2 n) := by
  unfold structHeader
  rw [if_neg (by omega), if_neg (by omega), if_pos h2]

theorem encodeByteSlice_s8 (p : List Nat) (h : p.length ≤ 255) :
    encodeByteSlice p = (mBytesSize8 :: ([p.length] ++ p), none) := by
  unfold encodeByteSlice
  rw [if_pos h]
  simp

theorem encodeByteSlice_s16 (p : List Nat) (h1 : 255 < p.length) (h2 : p.length ≤ 65535) :
    encodeByteSlice p = (mBytesSize16 :: (beBytes 2 p.length ++ p), none) := by
  unfold encodeByteSlice
  rw [if_neg (by omega), if_pos h2]
  simp

theorem encodeByteSlice_s32 (p : List Nat) (h1 : 65535 < p.length)
    (h2 : p.length ≤ 4294967295) :
    encodeByteSlice p = (mBytesSize32 :: (beBytes 4 p.length ++ p), none) := by
  unfold encodeByteSlice
  rw [if_neg (by omega), if_neg (by omega), if_pos h2]
  simp

/-! ## Cost positivity -/

theorem cost_pos (v : Value) : 1 ≤ cost v := by
  cases v <;> simp [cost]

theorem costElems_pos (xs : List Value) : 1 ≤ costElems xs := by
  cases xs <;> simp [costElems] <;> omega

theorem costPairs_pos (ps : List (List Nat × Value)) : 1 ≤ costPairs ps := by
  rcases ps with _ | ⟨⟨k, v⟩, t⟩ <;> simp [costPairs] <;> omega

theorem twos_lt_nat (bits : Nat) (n : Int) : twos bits n < 2 ^ bits := by
  have := twos_lt bits n
  have hc : (((2 : Nat) ^ bits : Nat) : Int) = (2 : Int) ^ bits := by push_cast; rfl
  omega

/-! ## Scalar marker roundtrips -/

theorem readByte_cons (b : Nat) (l : List Nat) : readByte (b :: l) = .ok (b, l) := rfl

theorem value_int_rt (n : Int) (hlo : -(2 ^ 63) ≤ n) (hhi : n < 2 ^ 63)
    (f : Nat) (rest : List Nat) :
    value (f + 1) false ((encodeIntBand n).1 ++ rest) = .ok (.val (.int n), false, rest) := by
  by_cases b1 : -16 ≤ n ∧ n ≤ 127
  · rw [encodeIntBand, if_pos b1]
    rcases le_or_lt 0 n with hn | hn
    · have hu : ((twos 8 n : Nat) : Int) = n := twos_eq_of_nonneg 8 n hn (by norm_num; omega)
      have hle : twos 8 n ≤ 0x7F := by omega
      simp only [List.cons_append, List.nil_append, value]
      rw [markerClass_tinyIntLow _ hle]
      simp [hu]
    · have hu : ((twos 8 n : Nat) : Int) = n + 256 :=
        twos_eq_of_neg 8 n (by norm_num; omega) hn
      have hge : 0xF0 ≤ twos 8 n := by omega
      have hle : twos 8 n ≤ 0xFF := by omega
      simp only [List.cons_append, List.nil_append, value]
      rw [markerClass_tinyIntHigh _ hge hle]
      simp [hu]
  · by_cases b2 : -128 ≤ n ∧ n < -16
    · rw [encodeIntBand, if_neg b1, if_pos b2]
      have hmc : markerClass mInt8 = .intN 1 := rfl
      simp only [List.cons_append, List.nil_append, value]
      rw [hmc]
      have hrb : readBytes 1 (twos 8 n :: rest) = .ok ([twos 8 n], rest) := by
        have : twos 8 n :: rest = [twos 8 n] ++ rest := by simp
        rw [this, readBytes_exact 1 [twos 8 n] rest rfl]
      simp [hrb, signed_twos 8 n (by norm_num) (by norm_num; omega) (by norm_num; omega)]
    · by_cases b3 : -32768 ≤ n ∧ n ≤ 32767
      · rw [encodeIntBand, if_neg b1, if_neg b2, if_pos b3]
        have hmc : markerClass mInt16 = .intN 2 := rfl
        simp only [List.cons_append, value]
        rw [hmc]
        simp [readBytes_exact 2 (beBytes 2 (twos 16 n)) rest (beBytes_length 2 _),
          beVal_beBytes 2 (twos 16 n) (by have := twos_lt_nat 16 n; norm_num; omega),
          signed_twos 16 n (by norm_num) (by norm_num; omega) (by norm_num; omega)]
      · by_cases b4 : -(2 ^ 31) ≤ n ∧ n ≤ 2 ^ 31 - 1
        · rw [encodeIntBand, if_neg b1, if_neg b2, if_neg b3, if_pos b4]
          have hmc : markerClass mInt32 = .intN 4 := rfl
          simp only [List.cons_append, value]
          rw [hmc]
          simp [readBytes_exact 4 (beBytes 4 (twos 32 n)) rest (beBytes_length 4 _),
            beVal_beBytes 4 (twos 32 n) (by have := twos_lt_nat 32 n; norm_num; omega),
            signed_twos 32 n (by norm_num) (by norm_num; omega) (by norm_num; omega)]
        · rw [encodeIntBand, if_neg b1, if_neg b2, if_neg b3, if_neg b4,
            if_pos (by omega : -(2 ^ 63) ≤ n ∧ n ≤ 2 ^ 63 - 1)]
          have hmc : markerClass mInt64 = .intN 8 := rfl
          simp only [List.cons_append, value]
          rw [hmc]
          simp [readBytes_exact 8 (beBytes 8 (twos 64 n)) rest (beBytes_length 8 _),
            beVal_beBytes 8 (twos 64 n) (by have := twos_lt_nat 64 n; norm_num; omega),
            signed_twos 64 n (by norm_num) (by norm_num; omega) (by norm_num; omega)]

theorem value_float_rt (bits : Nat) (hb : bits < 2 ^ 64) (f : Nat) (rest : List Nat) :
    value (f + 1) false ((mFloat64 :: beBytes 8 bits) ++ rest) =
      .ok (.val (.float bits), false, rest) := by
  have hmc : markerClass mFloat64 = .float := rfl
  simp only [List.cons_append, value]
  rw [hmc]
  simp [readBytes_exact 8 (beBytes 8 bits) rest (beBytes_length 8 _),
    beVal_beBytes 8 bits (by norm_num; omega)]

theorem value_str_rt (s : List Nat) (hs : s.length ≤ 4294967295) (f : Nat)
    (rest : List Nat) :
    value (f + 1) false ((encodeString s).1 ++ rest) = .ok (.val (.str s), false, rest) := by
  by_cases h1 : s.length < 16
  · rw [encodeString_tiny s h1]
    simp only [List.cons_append, value]
    rw [markerClass_tinyStr _ h1]
    simp [readBytes_exact s.length s rest rfl]
  · by_cases h2 : s.length ≤ 255
    · rw [encodeString_s8 s (by omega) h2]
      simp only [List.cons_append, List.singleton_append, value]
      have hmc : markerClass mStringSize8 = .sizedStr 1 := rfl
      rw [hmc]
      simp [readSize_one, readBytes_exact s.length s rest rfl]
    · by_cases h3 : s.length ≤ 65535
      · rw [encodeString_s16 s (by omega) h3]
        simp only [List.cons_append, List.append_assoc, value]
        have hmc : markerClass mStringSize16 = .sizedStr 2 := rfl
        rw [hmc]
        simp [readSize_exact 2 (beBytes 2 s.length) (s ++ rest) (beBytes_length 2 _),
          beVal_beBytes 2 s.length (by norm_num; omega),
          readBytes_exact s.length s rest rfl]
      · rw [encodeString_s32 s (by omega) hs]
        simp only [List.cons_append, List.append_assoc, value]
        have hmc : markerClass mStringSize32 = .sizedStr 4 := rfl
        rw [hmc]
        simp [readSize_exact 4 (beBytes 4 s.length) (s ++ rest) (beBytes_length 4 _),
          beVal_beBytes 4 s.length (by norm_num; omega),
          readBytes_exact s.length s rest rfl]

theorem value_bytes_rt (p : List Nat) (hs : p.length ≤ 4294967295) (f : Nat)
    (rest : List Nat) :
    value (f + 1) false ((encodeByteSlice p).1 ++ rest) =
      .ok (.val (.bytes p), false, rest) := by
  by_cases h1 : p.length ≤ 255
  · rw [encodeByteSlice_s8 p h1]
    simp only [List.cons_append, List.singleton_append, value]
    have hmc : markerClass mBytesSize8 = .sizedBytes 1 := rfl
    rw [hmc]
    simp [readSize_one, readBytes_exact p.length p rest rfl]
  · by_cases h2 : p.length ≤ 65535
    · rw [encodeByteSlice_s16 p (by omega) h2]
      simp only [List.cons_append, List.append_assoc, value]
      have hmc : markerClass mBytesSize16 = .sizedBytes 2 := rfl
      rw [hmc]
      simp [readSize_exact 2 (beBytes 2 p.length) (p ++ rest) (beBytes_length 2 _),
        beVal_beBytes 2 p.length (by norm_num; omega),
        readBytes_exact p.length p rest rfl]
    · rw [encodeByteSlice_s32 p (by omega) hs]
      simp only [List.cons_append, List.append_assoc, value]
      have hmc : markerClass mBytesSize32 = .sizedBytes 4 := rfl
      rw [hmc]
      simp [readSize_exact 4 (beBytes 4 p.length) (p ++ rest) (beBytes_length 4 _),
        beVal_beBytes 4 p.length (by norm_num; omega),
        readBytes_exact p.length p rest rfl]

/-! ## Round-trip: generic decode inverts the encoder on the well-formed domain -/

mutual

theorem value_rt (v : Value) (hw : wf v = true) (fuel : Nat) (hf : cost v ≤ fuel)
    (rest : List Nat) :
    value fuel false ((encode v).1 ++ rest) = .ok (.val (decImage v), false, rest) := by
  have hp := cost_pos v
  obtain ⟨f, rfl⟩ : ∃ f, fuel = f + 1 := ⟨fuel - 1, by omega⟩
  cases v with
  | null => rfl
  | bool b => cases b <;> rfl
  | int n =>
    simp only [wf, Bool.and_eq_true, decide_eq_true_eq] at hw
    simp only [decImage]
    exact value_int_rt n hw.1 hw.2 f rest
  | float bits =>
    simp only [wf, decide_eq_true_eq] at hw
    simp only [decImage]
    exact value_float_rt bits hw f rest
  | str s =>
    simp only [wf, Bool.and_eq_true, decide_eq_true_eq] at hw
    simp only [decImage]
    exact value_str_rt s hw.1 f rest
  | bytes p =>
    simp only [wf, Bool.and_eq_true, decide_eq_true_eq] at hw
    simp only [decImage]
    exact value_bytes_rt p hw.1 f rest
  | list xs =>
    simp only [wf, Bool.and_eq_true, decide_eq_true_eq] at hw
    obtain ⟨hlen, hxs⟩ := hw
    have hfe : costElems xs ≤ f := by
      simp only [cost] at hf
      omega
    have he := sizedElems_rt xs hxs f hfe rest
    by_cases h1 : xs.length < 16
    · simp only [encode, listHeader_tiny _ h1]
      simp only [List.cons_append, List.nil_append, value]
      rw [markerClass_tinyList _ h1]
      simp [he, decImage]
    · by_cases h2 : xs.length ≤ 255
      · simp only [encode, listHeader_s8 _ (by omega) h2]
        have hmc : markerClass mListSize8 = .sizedList 1 := rfl
        simp only [List.cons_append, List.nil_append, value]
        rw [hmc]
        simp [readSize_one, he, decImage]
      · by_cases h3 : xs.length ≤ 65535
        · simp only [encode, listHeader_s16 _ (by omega) h3]
          have hmc : markerClass mListSize16 = .sizedList 2 := rfl
          simp only [List.cons_append, List.append_assoc, value]
          rw [hmc]
          simp [readSize_exact 2 (beBytes 2 xs.length) _ (beBytes_length 2 _),
            beVal_beBytes 2 xs.length (by norm_num; omega), he, decImage]
        · simp only [encode, listHeader_s32 _ (by omega) hlen]
          have hmc : markerClass mListSize32 = .sizedList 4 := rfl
          simp only [List.cons_append, List.append_assoc, value]
          rw [hmc]
          simp [readSize_exact 4 (beBytes 4 xs.length) _ (beBytes_length 4 _),
            beVal_beBytes 4 xs.length (by norm_num; omega), he, decImage]
  | map ps =>
    simp only [wf, Bool.and_eq_true, decide_eq_true_eq] at hw
    obtain ⟨⟨hlen, hdk⟩, hps⟩ := hw
    have hfe : costPairs ps ≤ f := by
      simp only [cost] at hf
      omega
    have he := mapPairs_rt ps hps f hfe rest [] [] none
    by_cases h1 : ps.length < 16
    · simp only [encode, mapHeader_tiny _ h1]
      simp only [List.cons_append, List.nil_append, value]
      rw [markerClass_tinyMap _ h1]
      simp [he, decImage]
    · by_cases h2 : ps.length ≤ 255
      · simp only [encode, mapHeader_s8 _ (by omega) h2]
        have hmc : markerClass mMapSize8 = .sizedMap 1 := rfl
        simp only [List.cons_append, List.nil_append, value]
        rw [hmc]
        simp [readSize_one, he, decImage]
      · by_cases h3 : ps.length ≤ 65535
        · simp only [encode, mapHeader_s16 _ (by omega) h3]
          have hmc : markerClass mMapSize16 = .sizedMap 2 := rfl
          simp only [List.cons_append, List.append_assoc, value]
          rw [hmc]
          simp [readSize_exact 2 (beBytes 2 ps.length) _ (beBytes_length 2 _),
            beVal_beBytes 2 ps.length (by norm_num; omega), he, decImage]
        · simp only [encode, mapHeader_s32 _ (by omega) hlen]
          have hmc : markerClass mMapSize32 = .sizedMap 4 := rfl
          simp only [List.cons_append, List.append_assoc, value]
          rw [hmc]
          simp [readSize_exact 4 (beBytes 4 ps.length) _ (beBytes_length 4 _),
            beVal_beBytes 4 ps.length (by norm_num; omega), he, decImage]
  | struct sig fields =>
    simp only [wf, Bool.and_eq_true, decide_eq_true_eq] at hw
    obtain ⟨⟨hsig, hlen⟩, hfs⟩ := hw
    have hfe : costElems fields ≤ f := by
      simp only [cost] at hf
      omega
    have he := sizedElems_rt fields hfs f hfe rest
    by_cases h1 : fields.length < 16
    · simp only [encode, structHeader_tiny _ h1]
      simp only [List.cons_append, List.nil_append, List.append_assoc,
        List.singleton_append, value]
      rw [markerClass_tinyStruct _ h1]
      simp [readByte_cons, he, decImage]
    · by_cases h2 : fields.length ≤ 255
      · simp only [encode, structHeader_s8 _ (by omega) h2]
        have hmc : markerClass mStructSize8 = .sizedStruct 1 := rfl
        simp only [List.cons_append, List.nil_append, List.append_assoc,
          List.singleton_append, value]
        rw [hmc]
        simp [readSize_one, readByte_cons, he, decImage]
      · simp only [encode, structHeader_s16 _ (by omega) hlen]
        have hmc : markerClass mStructSize16 = .sizedStruct 2 := rfl
        simp only [List.cons_append, List.nil_append, List.append_assoc,
          List.singleton_append, value]
        rw [hmc]
        simp [readSize_exact 2 (beBytes 2 fields.length) _ (beBytes_length 2 _),
          beVal_beBytes 2 fields.length (by norm_num; omega), readByte_cons, he,
          decImage]

theorem sizedElems_rt (xs : List Value) (hw : wfElems xs = true) (fuel : Nat)
    (hf : costElems xs ≤ fuel) (rest : List Nat) :
    sizedElems fuel false xs.length ((encodeElems xs).1 ++ rest) =
      .ok (decImageElems xs, false, rest) := by
  have hp := costElems_pos xs
  obtain ⟨f, rfl⟩ : ∃ f, fuel = f + 1 := ⟨fuel - 1, by omega⟩
  cases xs with
  | nil => rfl
  | cons x t =>
    simp only [wfElems, Bool.and_eq_true] at hw
    obtain ⟨hx, ht⟩ := hw
    simp only [costElems] at hf
    rw [encodeElems_cons x t (encode_ok x hx), List.append_assoc]
    simp only [List.length_cons, sizedElems]
    rw [value_rt x hx f (by have := cost_pos x; have := costElems_pos t; omega) _]
    simp only [ebind_ok]
    rw [sizedElems_rt t ht f (by have := cost_pos x; omega) rest]
    rfl

theorem mapPairs_rt (ps : List (List Nat × Value)) (hw : wfPairs ps = true)
    (fuel : Nat) (hf : costPairs ps ≤ fuel) (rest : List Nat)
    (m0 : List (List Nat × Value)) (key0 : List Nat) (sval0 : Option Value) :
    mapPairs fuel false ps.length key0 sval0 m0 false ((encodePairs ps).1 ++ rest) =
      .ok (decImagePairs ps m0, false, rest) := by
  have hp := costPairs_pos ps
  obtain ⟨f, rfl⟩ : ∃ f, fuel = f + 1 := ⟨fuel - 1, by omega⟩
  cases ps with
  | nil =>
    simp only [encodePairs, List.length_nil, List.nil_append, decImagePairs]
    rw [mapPairs]
    rw [if_pos ⟨rfl, rfl⟩]
  | cons q t =>
    obtain ⟨k, v⟩ := q
    simp only [wfPairs, Bool.and_eq_true, decide_eq_true_eq] at hw
    obtain ⟨⟨⟨hkl, hkb⟩, hv⟩, ht⟩ := hw
    simp only [costPairs] at hf
    have hkenc : (encodeString k).2 = none := by
      unfold encodeString
      split_ifs <;> first | rfl | omega
    rw [encodePairs_cons k v t hkenc (encode_ok v hv), List.append_assoc,
      List.append_assoc]
    simp only [List.length_cons, mapPairs]
    rw [if_neg (by simp)]
    rw [readKey_enc k _ false hkl]
    simp only [ebind_ok]
    rw [value_rt v hv f (by have := costPairs_pos t; omega) _]
    simp only [ebind_ok, Option.getD_some]
    rw [applyIdx_storeVal (decImage v) sval0 m0 k]
    have := mapPairs_rt t ht f (by have := cost_pos v; omega) rest
      (mapStep m0 k (decImage v)) k (storeVal (.val (decImage v)) sval0)
    simp only [Nat.add_sub_cancel]
    rw [this]
    rfl

end

/-! ## Truncation: strict prefixes of encoder output fail with `Truncated` -/

/-- A strict prefix of `a ++ b` is a strict prefix of `a`, or `a` followed by a
strict prefix of `b`. -/
theorem prefix_strict_split (a b l : List Nat) (hp : l <+: a ++ b)
    (hl : l.length < a.length + b.length) :
    (l <+: a ∧ l.length < a.length) ∨
      ∃ l', l = a ++ l' ∧ l' <+: b ∧ l'.length < b.length := by
  rcases prefix_append_cases a b l hp with hc | ⟨l', rfl, hp2⟩
  · rcases Nat.lt_or_ge l.length a.length with hlt | hge
    · exact Or.inl ⟨hc, hlt⟩
    · have hle : l.length = a.length := by
        have := hc.length_le
        omega
      have heq : l = a := hc.eq_of_length hle
      subst heq
      refine Or.inr ⟨[], by simp, List.nil_prefix, ?_⟩
      simp only [List.length_nil]
      omega
  · refine Or.inr ⟨l', rfl, hp2, ?_⟩
    simp only [List.length_append] at hl
    omega

theorem encodeString_len_pos (s : List Nat) : 1 ≤ (encodeString s).1.length ∨
    65535 < s.length ∧ ¬s.length ≤ 4294967295 := by
  unfold encodeString
  split_ifs with h1 h2 h3 h4 <;> simp <;> omega

theorem encode_len_pos (v : Value) (hw : wf v = true) : 1 ≤ (encode v).1.length := by
  cases v with
  | null => simp [encode]
  | bool b => cases b <;> simp [encode]
  | int n =>
    simp only [wf, Bool.and_eq_true, decide_eq_true_eq] at hw
    show 1 ≤ (encodeIntBand n).1.length
    unfold encodeIntBand
    split_ifs <;> simp <;> omega
  | float bits => simp [encode]
  | str s =>
    simp only [wf, Bool.and_eq_true, decide_eq_true_eq] at hw
    show 1 ≤ (encodeString s).1.length
    rcases encodeString_len_pos s with h | h
    · exact h
    · omega
  | bytes p =>
    simp only [wf, Bool.and_eq_true, decide_eq_true_eq] at hw
    show 1 ≤ (encodeByteSlice p).1.length
    unfold encodeByteSlice
    split_ifs <;> simp <;> omega
  | list xs =>
    simp only [wf, Bool.and_eq_true, decide_eq_true_eq] at hw
    simp only [encode]
    rcases hhd : listHeader xs.length with _ | hd
    · exact absurd hhd (listHeader_ne_none _ hw.1)
    · have : 1 ≤ hd.length := by
        unfold listHeader at hhd
        split_ifs at hhd <;> injection hhd with h <;> rw [← h] <;> simp
      simp
      omega
  | map ps =>
    simp only [wf, Bool.and_eq_true, decide_eq_true_eq] at hw
    simp only [encode]
    rcases hhd : mapHeader ps.length with _ | hd
    · exact absurd hhd (mapHeader_ne_none _ hw.1.1)
    · have : 1 ≤ hd.length := by
        unfold mapHeader at hhd
        split_ifs at hhd <;> injection hhd with h <;> rw [← h] <;> simp
      simp
      omega
  | struct sig fields =>
    simp only [wf, Bool.and_eq_true, decide_eq_true_eq] at hw
    simp only [encode]
    rcases hhd : structHeader fields.length with _ | hd
    · exact absurd hhd (structHeader_ne_none _ hw.1.2)
    · have : 1 ≤ hd.length := by
        unfold structHeader at hhd
        split_ifs at hhd <;> injection hhd with h <;> rw [← h] <;> simp
      simp
      omega

theorem value_int_trunc (n : Int) (hlo : -(2 ^ 63) ≤ n) (hhi : n < 2 ^ 63) (f : Nat)
    (l : List Nat) (hp : l <+: (encodeIntBand n).1)
    (hl : l.length < (encodeIntBand n).1.length) :
    value (f + 1) false l = .error .truncated := by
  match l with
  | [] => rfl
  | m :: l₂ =>
    by_cases b1 : -16 ≤ n ∧ n ≤ 127
    · rw [encodeIntBand, if_pos b1] at hl
      simp at hl
    · by_cases b2 : -128 ≤ n ∧ n < -16
      · rw [encodeIntBand, if_neg b1, if_pos b2] at hp hl
        rw [List.cons_prefix_cons] at hp
        obtain ⟨rfl, hp2⟩ := hp
        simp at hl
        have hmc : markerClass mInt8 = .intN 1 := rfl
        simp only [value]
        rw [hmc]
        simp [readBytes_short 1 l₂ (by omega)]
      · by_cases b3 : -32768 ≤ n ∧ n ≤ 32767
        · rw [encodeIntBand, if_neg b1, if_neg b2, if_pos b3] at hp hl
          rw [List.cons_prefix_cons] at hp
          obtain ⟨rfl, hp2⟩ := hp
          simp [beBytes_length] at hl
          have hmc : markerClass mInt16 = .intN 2 := rfl
          simp only [value]
          rw [hmc]
          simp [readBytes_short 2 l₂ (by omega)]
        · by_cases b4 : -(2 ^ 31) ≤ n ∧ n ≤ 2 ^ 31 - 1
          · rw [encodeIntBand, if_neg b1, if_neg b2, if_neg b3, if_pos b4] at hp hl
            rw [List.cons_prefix_cons] at hp
            obtain ⟨rfl, hp2⟩ := hp
            simp [beBytes_length] at hl
            have hmc : markerClass mInt32 = .intN 4 := rfl
            simp only [value]
            rw [hmc]
            simp [readBytes_short 4 l₂ (by omega)]
          · rw [encodeIntBand, if_neg b1, if_neg b2, if_neg b3, if_neg b4,
              if_pos (by omega : -(2 ^ 63) ≤ n ∧ n ≤ 2 ^ 63 - 1)] at hp hl
            rw [List.cons_prefix_cons] at hp
            obtain ⟨rfl, hp2⟩ := hp
            simp [beBytes_length] at hl
            have hmc : markerClass mInt64 = .intN 8 := rfl
            simp only [value]
            rw [hmc]
            simp [readBytes_short 8 l₂ (by omega)]

theorem value_float_trunc (bits : Nat) (f : Nat) (l : List Nat)
    (hp : l <+: mFloat64 :: beBytes 8 bits)
    (hl : l.length < (mFloat64 :: beBytes 8 bits).length) :
    value (f + 1) false l = .error .truncated := by
  match l with
  | [] => rfl
  | m :: l₂ =>
    rw [List.cons_prefix_cons] at hp
    obtain ⟨rfl, hp2⟩ := hp
    simp [beBytes_length] at hl
    have hmc : markerClass mFloat64 = .float := rfl
    simp only [value]
    rw [hmc]
    simp [readBytes_short 8 l₂ (by omega)]

theorem value_str_trunc (s l : List Nat) (hs : s.length ≤ 4294967295) (f : Nat)
    (hp : l <+: (encodeString s).1) (hl : l.length < (encodeString s).1.length) :
    value (f + 1) false l = .error .truncated := by
  match l with
  | [] => rfl
  | m :: l₂ =>
    by_cases h1 : s.length < 16
    · rw [encodeString_tiny s h1] at hp hl
      rw [List.cons_prefix_cons] at hp
      obtain ⟨rfl, hp2⟩ := hp
      simp at hl
      simp only [value]
      rw [markerClass_tinyStr _ h1]
      simp [readBytes_short s.length l₂ (by omega)]
    · by_cases h2 : s.length ≤ 255
      · rw [encodeString_s8 s (by omega) h2] at hp hl
        rw [List.cons_prefix_cons] at hp
        obtain ⟨rfl, hp2⟩ := hp
        simp at hl
        simp only [value]
        have hmc : markerClass mStringSize8 = .sizedStr 1 := rfl
        rw [hmc]
        rcases prefix_sized_split 1 [s.length] s l₂ rfl hp2 (by simp; omega)
          with hshort | ⟨l₃, rfl, hp3, hl3⟩
        · simp [hshort]
        · simp [readSize_one, readBytes_short s.length l₃ hl3]
      · by_cases h3 : s.length ≤ 65535
        · rw [encodeString_s16 s (by omega) h3] at hp hl
          rw [List.cons_prefix_cons] at hp
          obtain ⟨rfl, hp2⟩ := hp
          simp [beBytes_length] at hl
          simp only [value]
          have hmc : markerClass mStringSize16 = .sizedStr 2 := rfl
          rw [hmc]
          rcases prefix_sized_split 2 (beBytes 2 s.length) s l₂ (beBytes_length 2 _)
            hp2 (by rw [beBytes_length]; omega) with hshort | ⟨l₃, rfl, hp3, hl3⟩
          · simp [hshort]
          · simp [readSize_exact 2 (beBytes 2 s.length) l₃ (beBytes_length 2 _),
              beVal_beBytes 2 s.length (by norm_num; omega),
              readBytes_short s.length l₃ hl3]
        · rw [encodeString_s32 s (by omega) hs] at hp hl
          rw [List.cons_prefix_cons] at hp
          obtain ⟨rfl, hp2⟩ := hp
          simp [beBytes_length] at hl
          simp only [value]
          have hmc : markerClass mStringSize32 = .sizedStr 4 := rfl
          rw [hmc]
          rcases prefix_sized_split 4 (beBytes 4 s.length) s l₂ (beBytes_length 4 _)
            hp2 (by rw [beBytes_length]; omega) with hshort | ⟨l₃, rfl, hp3, hl3⟩
          · simp [hshort]
          · simp [readSize_exact 4 (beBytes 4 s.length) l₃ (beBytes_length 4 _),
              beVal_beBytes 4 s.length (by norm_num; omega),
              readBytes_short s.length l₃ hl3]

theorem value_bytes_trunc (p l : List Nat) (hs : p.length ≤ 4294967295) (f : Nat)
    (hp : l <+: (encodeByteSlice p).1) (hl : l.length < (encodeByteSlice p).1.length) :
    value (f + 1) false l = .error .truncated := by
  match l with
  | [] => rfl
  | m :: l₂ =>
    by_cases h1 : p.length ≤ 255
    · rw [encodeByteSlice_s8 p h1] at hp hl
      rw [List.cons_prefix_cons] at hp
      obtain ⟨rfl, hp2⟩ := hp
      simp at hl
      simp only [value]
      have hmc : markerClass mBytesSize8 = .sizedBytes 1 := rfl
      rw [hmc]
      rcases prefix_sized_split 1 [p.length] p l₂ rfl hp2 (by simp; omega)
        with hshort | ⟨l₃, rfl, hp3, hl3⟩
      · simp [hshort]
      · simp [readSize_one, readBytes_short p.length l₃ hl3]
    · by_cases h2 : p.length ≤ 65535
      · rw [encodeByteSlice_s16 p (by omega) h2] at hp hl
        rw [List.cons_prefix_cons] at hp
        obtain ⟨rfl, hp2⟩ := hp
        simp [beBytes_length] at hl
        simp only [value]
        have hmc : markerClass mBytesSize16 = .sizedBytes 2 := rfl
        rw [hmc]
        rcases prefix_sized_split 2 (beBytes 2 p.length) p l₂ (beBytes_length 2 _)
          hp2 (by rw [beBytes_length]; omega) with hshort | ⟨l₃, rfl, hp3, hl3⟩
        · simp [hshort]
        · simp [readSize_exact 2 (beBytes 2 p.length) l₃ (beBytes_length 2 _),
            beVal_beBytes 2 p.length (by norm_num; omega),
            readBytes_short p.length l₃ hl3]
      · rw [encodeByteSlice_s32 p (by omega) hs] at hp hl
        rw [List.cons_prefix_cons] at hp
        obtain ⟨rfl, hp2⟩ := hp
        simp [beBytes_length] at hl
        simp only [value]
        have hmc : markerClass mBytesSize32 = .sizedBytes 4 := rfl
        rw [hmc]
        rcases prefix_sized_split 4 (beBytes 4 p.length) p l₂ (beBytes_length 4 _)
          hp2 (by rw [beBytes_length]; omega) with hshort | ⟨l₃, rfl, hp3, hl3⟩
        · simp [hshort]
        · simp [readSize_exact 4 (beBytes 4 p.length) l₃ (beBytes_length 4 _),
            beVal_beBytes 4 p.length (by norm_num; omega),
            readBytes_short p.length l₃ hl3]

mutual

theorem value_trunc (v : Value) (hw : wf v = true) (fuel : Nat) (hf : cost v ≤ fuel)
    (l : List Nat) (hp : l <+: (encode v).1) (hl : l.length < (encode v).1.length) :
    value fuel false l = .error .truncated := by
  have hpv := cost_pos v
  obtain ⟨f, rfl⟩ : ∃ f, fuel = f + 1 := ⟨fuel - 1, by omega⟩
  rcases l with _ | ⟨m, l₂⟩
  · rfl
  · cases v with
    | null =>
      simp [encode] at hl
    | bool b =>
      cases b <;> simp [encode] at hl
    | int n =>
      simp only [wf, Bool.and_eq_true, decide_eq_true_eq] at hw
      simp only [encode] at hp hl
      exact value_int_trunc n hw.1 hw.2 f _ hp hl
    | float bits =>
      simp only [encode] at hp hl
      exact value_float_trunc bits f _ hp hl
    | str s =>
      simp only [wf, Bool.and_eq_true, decide_eq_true_eq] at hw
      simp only [encode] at hp hl
      exact value_str_trunc s _ hw.1 f hp hl
    | bytes p =>
      simp only [wf, Bool.and_eq_true, decide_eq_true_eq] at hw
      simp only [encode] at hp hl
      exact value_bytes_trunc p _ hw.1 f hp hl
    | list xs =>
      simp only [wf, Bool.and_eq_true, decide_eq_true_eq] at hw
      obtain ⟨hlen, hxs⟩ := hw
      have hfe : costElems xs ≤ f := by
        simp only [cost] at hf
        omega
      by_cases h1 : xs.length < 16
      · simp only [encode, listHeader_tiny _ h1, List.cons_append, List.nil_append]
          at hp hl
        rw [List.cons_prefix_cons] at hp
        obtain ⟨rfl, hp2⟩ := hp
        simp only [List.length_cons] at hl
        simp only [value]
        rw [markerClass_tinyList _ h1]
        simp [sizedElems_trunc xs hxs f hfe l₂ hp2 (by omega)]
      · by_cases h2 : xs.length ≤ 255
        · simp only [encode, listHeader_s8 _ (by omega) h2, List.cons_append,
            List.nil_append] at hp hl
          rw [List.cons_prefix_cons] at hp
          obtain ⟨rfl, hp2⟩ := hp
          simp at hl
          simp only [value]
          have hmc : markerClass mListSize8 = .sizedList 1 := rfl
          rw [hmc]
          rcases prefix_sized_split 1 [xs.length] ((encodeElems xs).1) l₂ rfl hp2
            (by simp; omega) with hshort | ⟨l₃, rfl, hp3, hl3⟩
          · simp [hshort]
          · simp [readSize_one, sizedElems_trunc xs hxs f hfe l₃ hp3 hl3]
        · by_cases h3 : xs.length ≤ 65535
          · simp only [encode, listHeader_s16 _ (by omega) h3, List.cons_append,
              List.nil_append] at hp hl
            rw [List.cons_prefix_cons] at hp
            obtain ⟨rfl, hp2⟩ := hp
            simp [beBytes_length] at hl
            simp only [value]
            have hmc : markerClass mListSize16 = .sizedList 2 := rfl
            rw [hmc]
            rcases prefix_sized_split 2 (beBytes 2 xs.length) ((encodeElems xs).1) l₂
              (beBytes_length 2 _) hp2 (by rw [beBytes_length]; omega)
              with hshort | ⟨l₃, rfl, hp3, hl3⟩
            · simp [hshort]
            · simp [readSize_exact 2 (beBytes 2 xs.length) l₃ (beBytes_length 2 _),
                beVal_beBytes 2 xs.length (by norm_num; omega),
                sizedElems_trunc xs hxs f hfe l₃ hp3 hl3]
          · simp only [encode, listHeader_s32 _ (by omega) hlen, List.cons_append,
              List.nil_append] at hp hl
            rw [List.cons_prefix_cons] at hp
            obtain ⟨rfl, hp2⟩ := hp
            simp [beBytes_length] at hl
            simp only [value]
            have hmc : markerClass mListSize32 = .sizedList 4 := rfl
            rw [hmc]
            rcases prefix_sized_split 4 (beBytes 4 xs.length) ((encodeElems xs).1) l₂
              (beBytes_length 4 _) hp2 (by rw [beBytes_length]; omega)
              with hshort | ⟨l₃, rfl, hp3, hl3⟩
            · simp [hshort]
            · simp [readSize_exact 4 (beBytes 4 xs.length) l₃ (beBytes_length 4 _),
                beVal_beBytes 4 xs.length (by norm_num; omega),
                sizedElems_trunc xs hxs f hfe l₃ hp3 hl3]
    | map ps =>
      simp only [wf, Bool.and_eq_true, decide_eq_true_eq] at hw
      obtain ⟨⟨hlen, hdk⟩, hps⟩ := hw
      have hfe : costPairs ps ≤ f := by
        simp only [cost] at hf
        omega
      by_cases h1 : ps.length < 16
      · simp only [encode, mapHeader_tiny _ h1, List.cons_append, List.nil_append]
          at hp hl
        rw [List.cons_prefix_cons] at hp
        obtain ⟨rfl, hp2⟩ := hp
        simp only [List.length_cons] at hl
        simp only [value]
        rw [markerClass_tinyMap _ h1]
        simp [mapPairs_trunc ps hps f hfe l₂ hp2 (by omega) [] [] none]
      · by_cases h2 : ps.length ≤ 255
        · simp only [encode, mapHeader_s8 _ (by omega) h2, List.cons_append,
            List.nil_append] at hp hl
          rw [List.cons_prefix_cons] at hp
          obtain ⟨rfl, hp2⟩ := hp
          simp at hl
          simp only [value]
          have hmc : markerClass mMapSize8 = .sizedMap 1 := rfl
          rw [hmc]
          rcases prefix_sized_split 1 [ps.length] ((encodePairs ps).1) l₂ rfl hp2
            (by simp; omega) with hshort | ⟨l₃, rfl, hp3, hl3⟩
          · simp [hshort]
          · simp [readSize_one, mapPairs_trunc ps hps f hfe l₃ hp3 hl3 [] [] none]
        · by_cases h3 : ps.length ≤ 65535
          · simp only [encode, mapHeader_s16 _ (by omega) h3, List.cons_append,
              List.nil_append] at hp hl
            rw [List.cons_prefix_cons] at hp
            obtain ⟨rfl, hp2⟩ := hp
            simp [beBytes_length] at hl
            simp only [value]
            have hmc : markerClass mMapSize16 = .sizedMap 2 := rfl
            rw [hmc]
            rcases prefix_sized_split 2 (beBytes 2 ps.length) ((encodePairs ps).1) l₂
              (beBytes_length 2 _) hp2 (by rw [beBytes_length]; omega)
              with hshort | ⟨l₃, rfl, hp3, hl3⟩
            · simp [hshort]
            · simp [readSize_exact 2 (beBytes 2 ps.length) l₃ (beBytes_length 2 _),
                beVal_beBytes 2 ps.length (by norm_num; omega),
                mapPairs_trunc ps hps f hfe l₃ hp3 hl3 [] [] none]
          · simp only [encode, mapHeader_s32 _ (by omega) hlen, List.cons_append,
              List.nil_append] at hp hl
            rw [List.cons_prefix_cons] at hp
            obtain ⟨rfl, hp2⟩ := hp
            simp [beBytes_length] at hl
            simp only [value]
            have hmc : markerClass mMapSize32 = .sizedMap 4 := rfl
            rw [hmc]
            rcases prefix_sized_split 4 (beBytes 4 ps.length) ((encodePairs ps).1) l₂
              (beBytes_length 4 _) hp2 (by rw [beBytes_length]; omega)
              with hshort | ⟨l₃, rfl, hp3, hl3⟩
            · simp [hshort]
            · simp [readSize_exact 4 (beBytes 4 ps.length) l₃ (beBytes_length 4 _),
                beVal_beBytes 4 ps.length (by norm_num; omega),
                mapPairs_trunc ps hps f hfe l₃ hp3 hl3 [] [] none]
    | struct sig fields =>
      simp only [wf, Bool.and_eq_true, decide_eq_true_eq] at hw
      obtain ⟨⟨hsig, hlen⟩, hfs⟩ := hw
      have hfe : costElems fields ≤ f := by
        simp only [cost] at hf
        omega
      by_cases h1 : fields.length < 16
      · simp only [encode, structHeader_tiny _ h1, List.cons_append, List.nil_append,
          List.append_assoc, List.singleton_append] at hp hl
        rw [List.cons_prefix_cons] at hp
        obtain ⟨rfl, hp2⟩ := hp
        simp only [List.length_cons] at hl
        simp only [value]
        rw [markerClass_tinyStruct _ h1]
        rcases l₂ with _ | ⟨s2, l₃⟩
        · simp [readByte]
        · rw [List.cons_prefix_cons] at hp2
          obtain ⟨rfl, hp3⟩ := hp2
          simp only [List.length_cons] at hl
          simp [readByte_cons, sizedElems_trunc fields hfs f hfe l₃ hp3 (by omega)]
      · by_cases h2 : fields.length ≤ 255
        · simp only [encode, structHeader_s8 _ (by omega) h2, List.cons_append,
            List.nil_append, List.append_assoc, List.singleton_append] at hp hl
          rw [List.cons_prefix_cons] at hp
          obtain ⟨rfl, hp2⟩ := hp
          simp only [List.length_cons] at hl
          simp only [value]
          have hmc : markerClass mStructSize8 = .sizedStruct 1 := rfl
          rw [hmc]
          rcases l₂ with _ | ⟨n2, l₃⟩
          · simp [readSize_short 1 [] (by simp)]
          · rw [List.cons_prefix_cons] at hp2
            obtain ⟨rfl, hp3⟩ := hp2
            simp only [List.length_cons] at hl
            rcases l₃ with _ | ⟨s2, l₄⟩
            · simp [readSize_one, readByte]
            · rw [List.cons_prefix_cons] at hp3
              obtain ⟨rfl, hp4⟩ := hp3
              simp only [List.length_cons] at hl
              simp [readSize_one, readByte_cons,
                sizedElems_trunc fields hfs f hfe l₄ hp4 (by omega)]
        · simp only [encode, structHeader_s16 _ (by omega) hlen, List.cons_append,
            List.nil_append, List.append_assoc, List.singleton_append] at hp hl
          rw [List.cons_prefix_cons] at hp
          obtain ⟨rfl, hp2⟩ := hp
          simp only [List.length_cons, List.length_append, beBytes_length] at hl
          simp only [value]
          have hmc : markerClass mStructSize16 = .sizedStruct 2 := rfl
          rw [hmc]
          rcases prefix_sized_split 2 (beBytes 2 fields.length)
            (sig :: (encodeElems fields).1) l₂ (beBytes_length 2 _) hp2
            (by simp only [beBytes_length, List.length_cons]; omega)
            with hshort | ⟨l₃, rfl, hp3, hl3⟩
          · simp [hshort]
          · rcases l₃ with _ | ⟨s2, l₄⟩
            · have hrs : readSize 2 (beBytes 2 fields.length) =
                  .ok (beVal (beBytes 2 fields.length), []) := by
                have := readSize_exact 2 (beBytes 2 fields.length) [] (beBytes_length 2 _)
                simpa using this
              simp [hrs, readByte]
            · rw [List.cons_prefix_cons] at hp3
              obtain ⟨rfl, hp4⟩ := hp3
              simp only [List.length_cons] at hl3
              simp [readSize_exact 2 (beBytes 2 fields.length) _ (beBytes_length 2 _),
                beVal_beBytes 2 fields.length (by norm_num; omega), readByte_cons,
                sizedElems_trunc fields hfs f hfe l₄ hp4 (by omega)]

theorem sizedElems_trunc (xs : List Value) (hw : wfElems xs = true) (fuel : Nat)
    (hf : costElems xs ≤ fuel) (l : List Nat) (hp : l <+: (encodeElems xs).1)
    (hl : l.length < (encodeElems xs).1.length) :
    sizedElems fuel false xs.length l = .error .truncated := by
  have hpe := costElems_pos xs
  obtain ⟨f, rfl⟩ : ∃ f, fuel = f + 1 := ⟨fuel - 1, by omega⟩
  cases xs with
  | nil => simp [encodeElems] at hl
  | cons x t =>
    simp only [wfElems, Bool.and_eq_true] at hw
    obtain ⟨hx, ht⟩ := hw
    simp only [costElems] at hf
    rw [encodeElems_cons x t (encode_ok x hx)] at hp hl
    simp only [List.length_append] at hl
    rcases prefix_strict_split ((encode x).1) ((encodeElems t).1) l hp hl
      with ⟨hc, hlt⟩ | ⟨l₃, rfl, hp3, hl3⟩
    · simp only [List.length_cons, sizedElems]
      simp [value_trunc x hx f (by have := costElems_pos t; omega) l hc hlt]
    · simp only [List.length_cons, sizedElems]
      rw [value_rt x hx f (by have := costElems_pos t; omega) l₃]
      simp [sizedElems_trunc t ht f (by have := cost_pos x; omega) l₃ hp3 hl3]

theorem mapPairs_trunc (ps : List (List Nat × Value)) (hw : wfPairs ps = true)
    (fuel : Nat) (hf : costPairs ps ≤ fuel) (l : List Nat)
    (hp : l <+: (encodePairs ps).1) (hl : l.length < (encodePairs ps).1.length)
    (m0 : List (List Nat × Value)) (key0 : List Nat) (sval0 : Option Value) :
    mapPairs fuel false ps.length key0 sval0 m0 false l = .error .truncated := by
  have hpp := costPairs_pos ps
  obtain ⟨f, rfl⟩ : ∃ f, fuel = f + 1 := ⟨fuel - 1, by omega⟩
  cases ps with
  | nil => simp [encodePairs] at hl
  | cons q t =>
    obtain ⟨k, v⟩ := q
    simp only [wfPairs, Bool.and_eq_true, decide_eq_true_eq] at hw
    obtain ⟨⟨⟨hkl, hkb⟩, hv⟩, ht⟩ := hw
    simp only [costPairs] at hf
    have hkenc : (encodeString k).2 = none := by
      unfold encodeString
      split_ifs <;> first | rfl | omega
    rw [encodePairs_cons k v t hkenc (encode_ok v hv), List.append_assoc] at hp hl
    simp only [List.length_append] at hl
    rcases prefix_strict_split ((encodeString k).1)
      ((encode v).1 ++ (encodePairs t).1) l hp (by simp [List.length_append]; omega)
      with ⟨hc, hlt⟩ | ⟨l₃, rfl, hp3, hl3⟩
    · simp only [List.length_cons, mapPairs]
      rw [if_neg (by simp)]
      simp [readKey_trunc k l false hkl hc hlt]
    · simp only [List.length_cons, mapPairs]
      rw [if_neg (by simp)]
      rw [readKey_enc k l₃ false hkl]
      simp only [ebind_ok, Option.getD_some]
      rcases prefix_strict_split ((encode v).1) ((encodePairs t).1) l₃ hp3
        (by simpa using hl3) with ⟨hc4, hlt4⟩ | ⟨l₄, rfl, hp4, hl4⟩
      · simp [value_trunc v hv f (by have := costPairs_pos t; omega) l₃ hc4 hlt4]
      · rw [value_rt v hv f (by have := costPairs_pos t; omega) l₄]
        simp only [ebind_ok, Nat.add_sub_cancel]
        exact mapPairs_trunc t ht f (by have := cost_pos v; omega) l₄ hp4 hl4 _ _ _

end

/-! ## Header failure lemmas -/

theorem listHeader_none (n : Nat) (h : 4294967295 < n) : listHeader n = none := by
  unfold listHeader
  rw [if_neg (by omega), if_neg (by omega), if_neg (by omega), if_neg (by omega)]

theorem mapHeader_none (n : Nat) (h : 4294967295 < n) : mapHeader n = none := by
  unfold mapHeader
  rw [if_neg (by omega), if_neg (by omega), if_neg (by omega), if_neg (by omega)]

theorem structHeader_none (n : Nat) (h : 65535 < n) : structHeader n = none := by
  unfold structHeader
  rw [if_neg (by omega), if_neg (by omega), if_neg (by omega)]

/-! ## Claims -/

/-- C1's counterexample: the round-trip identity fails for a map holding a
null value.  `{"a": nil}` is in the supported domain and encodes (successfully)
to `A1 81 61 C0`, but decoding those bytes yields the **empty** map, not the
original: `unmarshalNull` leaves the `value` interface nil, and `SetMapIndex`
with the resulting zero `reflect.Value` deletes the key instead of storing the
pair. -/
theorem claim_C1_counterexample :
    wf (Value.map [([0x61], .null)]) = true ∧
    (encode (Value.map [([0x61], .null)])).2 = none ∧
    (encode (Value.map [([0x61], .null)])).1 = [0xA1, 0x81, 0x61, 0xC0] ∧
    value 4 false [0xA1, 0x81, 0x61, 0xC0] = .ok (.val (.map []), false, []) ∧
    Value.map [] ≠ Value.map [([0x61], .null)] := by
  refine ⟨by decide, rfl, rfl, rfl, ?_⟩
  intro h
  injection h with h'
  simp at h'

/-- C1 (corrected): For every universal value `v` in the supported domain
(nil, bool, int64, float64, string, `[]byte`, lists, string-keyed maps,
`Structure`, within the size limits — `wf`) **in which no map holds a
null-valued entry** (`noNull`), encoding succeeds and decoding the produced
bytes yields a value equal to `v`, consuming exactly the buffer.  The
restriction is forced by the counterexample: a map pair whose value is null is
deleted by the decoder, so such values do not round-trip.  Maps are
association lists with pairwise-distinct keys here, where list equality
coincides with the unordered pair-set equality of the claim.  `fuel` is the
embedding's recursion bound; any `fuel ≥ cost v` works. -/
theorem claim_C1 (v : Value) (hw : wf v = true) (hnn : noNull v = true)
    (fuel : Nat) (hf : cost v ≤ fuel) :
    (encode v).2 = none ∧
      value fuel false (encode v).1 = .ok (.val v, false, []) := by
  refine ⟨encode_ok v hw, ?_⟩
  have h := value_rt v hw fuel hf []
  rw [decImage_eq_self v hw hnn] at h
  simpa using h

/-- Witness for C1 at a concrete nested value (a map holding an int, a
heterogeneous list — a null list element is fine — and a structure). -/
theorem claim_C1_witness :
    wf (Value.map [([0x61], .int 42),
      ([0x62], .list [.str [0x68], .null, .bool true, .float 5, .bytes [1, 2]]),
      ([0x63], .struct 7 [.int (-300)])]) = true ∧
    noNull (Value.map [([0x61], .int 42),
      ([0x62], .list [.str [0x68], .null, .bool true, .float 5, .bytes [1, 2]]),
      ([0x63], .struct 7 [.int (-300)])]) = true ∧
    (encode (Value.map [([0x61], .int 42),
      ([0x62], .list [.str [0x68], .null, .bool true, .float 5, .bytes [1, 2]]),
      ([0x63], .struct 7 [.int (-300)])])).2 = none ∧
    value 64 false (encode (Value.map [([0x61], .int 42),
      ([0x62], .list [.str [0x68], .null, .bool true, .float 5, .bytes [1, 2]]),
      ([0x63], .struct 7 [.int (-300)])])).1 =
      .ok (.val (Value.map [([0x61], .int 42),
        ([0x62], .list [.str [0x68], .null, .bool true, .float 5, .bytes [1, 2]]),
        ([0x63], .struct 7 [.int (-300)])]), false, []) :=
  ⟨by decide, by decide,
    claim_C1 (Value.map [([0x61], .int 42),
      ([0x62], .list [.str [0x68], .null, .bool true, .float 5, .bytes [1, 2]]),
      ([0x63], .struct 7 [.int (-300)])]) (by decide) (by decide) 64 (by decide)⟩

/-- C2's counterexample: decoding the reserved marker `C4` through `Unmarshal`
into a generic target does **not** fail with any error; it succeeds, stores
nothing, and the stream is past the single marker byte.  The switch in
`decodeState.value` has no case (and no default) for reserved markers, so
`err` stays nil. -/
theorem claim_C2_counterexample :
    unmarshal .ptrInterface 1 [0xC4] = .ok (.noval, false, []) := by rfl

/-- C2 amended: for every input whose next marker byte lies in the reserved
set (`C4..C7`, `CF`, `D3`, `DE`, `E0..EF`), decoding consumes exactly one byte
and returns success with nothing stored (a silent no-op, not `UnknownMarker`
— the source has no such error). -/
theorem claim_C2 (m : Nat) (hm : reservedMarker m) (fuel : Nat) (hf : 1 ≤ fuel)
    (eos : Bool) (rest : List Nat) :
    value fuel eos (m :: rest) = .ok (.noval, eos, rest) := by
  obtain ⟨f, rfl⟩ : ∃ f, fuel = f + 1 := ⟨fuel - 1, by omega⟩
  simp only [value]
  rw [markerClass_reserved m hm]

/-- Witness for C2 at the reserved marker `E5`. -/
theorem claim_C2_witness :
    reservedMarker 0xE5 ∧ (1 : Nat) ≤ 1 ∧
      value 1 false (0xE5 :: [7]) = .ok (.noval, false, [7]) :=
  ⟨by decide, by decide, claim_C2 0xE5 (by decide) 1 (by decide) false [7]⟩

/-- C3's counterexample: reading the end-of-stream marker `DF` at the top
level (a non-streamed decode position) does **not** fail with
`UnexpectedEndOfStream` (no such error exists in the source); `Unmarshal`
returns success with nothing stored and the `eos` flag set. -/
theorem claim_C3_counterexample :
    unmarshal .ptrInterface 1 [0xDF] = .ok (.noval, true, []) := by rfl

/-- C3 amended: whenever `DF` is read by `decodeState.value` at a position
that is not a streamed-container element boundary, the decode does not fail:
the byte is consumed, the `d.eos` flag is set, and nothing is stored.  In
particular at an element position of a sized container the element is left at
its zero value and decoding continues (second conjunct: a tiny list of
declared size 1 whose element position holds `DF` decodes to `[nil]` with the
flag left set). -/
theorem claim_C3 (fuel : Nat) (hf : 1 ≤ fuel) (eos : Bool) (rest : List Nat) :
    value fuel eos (mEndOfStream :: rest) = .ok (.noval, true, rest) ∧
      value 3 false [0x91, 0xDF] = .ok (.val (.list [.null]), true, []) := by
  constructor
  · obtain ⟨f, rfl⟩ : ∃ f, fuel = f + 1 := ⟨fuel - 1, by omega⟩
    simp only [value]
    rw [show markerClass mEndOfStream = .endOfStream from rfl]
  · rfl

/-- Witness for C3. -/
theorem claim_C3_witness :
    (1 : Nat) ≤ 1 ∧
      (value 1 false (mEndOfStream :: [0x42]) = .ok (.noval, true, [0x42]) ∧
        value 3 false [0x91, 0xDF] = .ok (.val (.list [.null]), true, [])) :=
  ⟨by decide, claim_C3 1 (by decide) false [0x42]⟩

/-- C4: `encodeInt` on a signed 64-bit source selects the first matching band
in the order tiny (−16..127, the single byte `n & 0xFF`), int8 (`C8`, for
−128..−17 only — positive tiny values never take the int8 form), int16 (`C9`),
int32 (`CA`), int64 (`CB`), and the produced buffer has length exactly 1, 2,
3, 5, or 9 according to the band. -/
theorem claim_C4 (n1 n2 n3 n4 n5 : Int)
    (h1 : -16 ≤ n1 ∧ n1 ≤ 127)
    (h2 : -128 ≤ n2 ∧ n2 < -16)
    (h3 : (-32768 ≤ n3 ∧ n3 ≤ 32767) ∧ ¬(-128 ≤ n3 ∧ n3 ≤ 127))
    (h4 : (-(2 ^ 31) ≤ n4 ∧ n4 ≤ 2 ^ 31 - 1) ∧ ¬(-32768 ≤ n4 ∧ n4 ≤ 32767))
    (h5 : (-(2 ^ 63) ≤ n5 ∧ n5 ≤ 2 ^ 63 - 1) ∧ ¬(-(2 ^ 31) ≤ n5 ∧ n5 ≤ 2 ^ 31 - 1)) :
    (encodeInt (.signed n1) = ([twos 8 n1], none) ∧
      (encodeInt (.signed n1)).1.length = 1) ∧
    (encodeInt (.signed n2) = ([mInt8, twos 8 n2], none) ∧
      (encodeInt (.signed n2)).1.length = 2) ∧
    (encodeInt (.signed n3) = (mInt16 :: beBytes 2 (twos 16 n3), none) ∧
      (encodeInt (.signed n3)).1.length = 3) ∧
    (encodeInt (.signed n4) = (mInt32 :: beBytes 4 (twos 32 n4), none) ∧
      (encodeInt (.signed n4)).1.length = 5) ∧
    (encodeInt (.signed n5) = (mInt64 :: beBytes 8 (twos 64 n5), none) ∧
      (encodeInt (.signed n5)).1.length = 9) := by
  refine ⟨⟨?_, ?_⟩, ⟨?_, ?_⟩, ⟨?_, ?_⟩, ⟨?_, ?_⟩, ⟨?_, ?_⟩⟩ <;>
    simp only [encodeInt, encodeIntBand]
  · rw [if_pos h1]
  · rw [if_pos h1]
    simp
  · rw [if_neg (by omega), if_pos h2]
  · rw [if_neg (by omega), if_pos h2]
    simp
  · rw [if_neg (by omega), if_neg (by omega), if_pos h3.1]
  · rw [if_neg (by omega), if_neg (by omega), if_pos h3.1]
    simp [beBytes_length]
  · rw [if_neg (by omega), if_neg (by omega), if_neg (by omega), if_pos h4.1]
  · rw [if_neg (by omega), if_neg (by omega), if_neg (by omega), if_pos h4.1]
    simp [beBytes_length]
  · rw [if_neg (by omega), if_neg (by omega), if_neg (by omega), if_neg (by omega),
      if_pos h5.1]
  · rw [if_neg (by omega), if_neg (by omega), if_neg (by omega), if_neg (by omega),
      if_pos h5.1]
    simp [beBytes_length]

/-- Witness for C4 at one representative of each band. -/
theorem claim_C4_witness :
    (encodeInt (.signed 5) = ([twos 8 5], none) ∧
      (encodeInt (.signed 5)).1.length = 1) ∧
    (encodeInt (.signed (-20)) = ([mInt8, twos 8 (-20)], none) ∧
      (encodeInt (.signed (-20))).1.length = 2) ∧
    (encodeInt (.signed 1000) = (mInt16 :: beBytes 2 (twos 16 1000), none) ∧
      (encodeInt (.signed 1000)).1.length = 3) ∧
    (encodeInt (.signed 100000) = (mInt32 :: beBytes 4 (twos 32 100000), none) ∧
      (encodeInt (.signed 100000)).1.length = 5) ∧
    (encodeInt (.signed (2 ^ 40)) = (mInt64 :: beBytes 8 (twos 64 (2 ^ 40)), none) ∧
      (encodeInt (.signed (2 ^ 40))).1.length = 9) :=
  claim_C4 5 (-20) 1000 100000 (2 ^ 40) (by norm_num) (by norm_num)
    (by norm_num) (by norm_num) (by norm_num)

/-- C6: for every byte buffer the encoder produces from a supported value,
decoding any strict prefix (any `take k` with `k` below the buffer length,
the empty prefix included) fails with the `Truncated` error (`io.EOF` from
`readBytes`). -/
theorem claim_C6 (v : Value) (hw : wf v = true) (fuel : Nat) (hf : cost v ≤ fuel)
    (k : Nat) (hk : k < (encode v).1.length) :
    value fuel false ((encode v).1.take k) = .error .truncated := by
  apply value_trunc v hw fuel hf
  · exact List.take_prefix k _
  · rw [List.length_take]
    omega

/-- Witness for C6: the one-byte prefix of the encoding of the two-byte
string value `"a"`. -/
theorem claim_C6_witness :
    wf (Value.str [0x61]) = true ∧ cost (Value.str [0x61]) ≤ 1 ∧
      1 < (encode (Value.str [0x61])).1.length ∧
      value 1 false ((encode (Value.str [0x61])).1.take 1) = .error .truncated :=
  ⟨by decide, by decide, by decide,
    claim_C6 (Value.str [0x61]) (by decide) 1 (by decide) 1 (by decide)⟩

/-- C5: size-class dispatch by element count.  Strings get the tiny marker
`0x80|n` for `n < 16`; bytes have no tiny form (the 8-bit form is used even
for `n < 16`); each type then uses the 8-bit-size marker + 1-byte size for
`n ≤ 255`, the 16-bit form for `n ≤ 65535`, and the 32-bit form for
`n ≤ 2³²−1`; there is no 32-bit struct form, so a field count above `2¹⁶−1`
fails with `ValueTooLarge`.  The `listHeader`/`mapHeader`/`structHeader`
bytes are exactly the marker+size bytes `encodeList`/`encodeMap`/`encodeStruct`
write before the payload (last three conjuncts). -/
theorem claim_C5 (st s8 s16 s32 pt p16 p32 : List Nat) (nt n8 n16 n32 : Nat)
    (xs : List Value) (ps : List (List Nat × Value)) (sig : Nat)
    (fs fsBig : List Value)
    (hst : st.length < 16) (hs8 : 16 ≤ s8.length ∧ s8.length ≤ 255)
    (hs16 : 255 < s16.length ∧ s16.length ≤ 65535)
    (hs32 : 65535 < s32.length ∧ s32.length ≤ 4294967295)
    (hpt : pt.length < 16) (hp16 : 255 < p16.length ∧ p16.length ≤ 65535)
    (hp32 : 65535 < p32.length ∧ p32.length ≤ 4294967295)
    (hnt : nt < 16) (hn8 : 16 ≤ n8 ∧ n8 ≤ 255) (hn16 : 255 < n16 ∧ n16 ≤ 65535)
    (hn32 : 65535 < n32 ∧ n32 ≤ 4294967295)
    (hxs : xs.length ≤ 4294967295) (hps : ps.length ≤ 4294967295)
    (hfs : fs.length ≤ 65535) (hfsBig : 65535 < fsBig.length) :
    (encodeString st).1 = (0x80 + st.length) :: st ∧
    (encodeString s8).1 = mStringSize8 :: s8.length :: s8 ∧
    (encodeString s16).1 = mStringSize16 :: (beBytes 2 s16.length ++ s16) ∧
    (encodeString s32).1 = mStringSize32 :: (beBytes 4 s32.length ++ s32) ∧
    (encodeByteSlice pt).1 = mBytesSize8 :: pt.length :: pt ∧
    (encodeByteSlice p16).1 = mBytesSize16 :: (beBytes 2 p16.length ++ p16) ∧
    (encodeByteSlice p32).1 = mBytesSize32 :: (beBytes 4 p32.length ++ p32) ∧
    listHeader nt = some [0x90 + nt] ∧
    listHeader n8 = some [mListSize8, n8] ∧
    listHeader n16 = some (mListSize16 :: beBytes 2 n16) ∧
    listHeader n32 = some (mListSize32 :: beBytes 4 n32) ∧
    mapHeader nt = some [0xA0 + nt] ∧
    mapHeader n8 = some [mMapSize8, n8] ∧
    mapHeader n16 = some (mMapSize16 :: beBytes 2 n16) ∧
    mapHeader n32 = some (mMapSize32 :: beBytes 4 n32) ∧
    structHeader nt = some [0xB0 + nt] ∧
    structHeader n8 = some [mStructSize8, n8] ∧
    structHeader n16 = some (mStructSize16 :: beBytes 2 n16) ∧
    structHeader n32 = none ∧
    (encode (.list xs)).1 = (listHeader xs.length).getD [] ++ (encodeElems xs).1 ∧
    (encode (.map ps)).1 = (mapHeader ps.length).getD [] ++ (encodePairs ps).1 ∧
    (encode (.struct sig fs)).1 =
      (structHeader fs.length).getD [] ++ [sig] ++ (encodeElems fs).1 ∧
    encode (.struct sig fsBig) = ([], some .valueTooLarge) := by
  refine ⟨?_, ?_, ?_, ?_, ?_, ?_, ?_, ?_, ?_, ?_, ?_, ?_, ?_, ?_, ?_, ?_, ?_, ?_,
    ?_, ?_, ?_, ?_, ?_⟩
  · rw [encodeString_tiny st hst]
  · rw [encodeString_s8 s8 hs8.1 hs8.2]
    simp
  · rw [encodeString_s16 s16 hs16.1 hs16.2]
  · rw [encodeString_s32 s32 hs32.1 hs32.2]
  · rw [encodeByteSlice_s8 pt (by omega)]
    simp
  · rw [encodeByteSlice_s16 p16 hp16.1 hp16.2]
  · rw [encodeByteSlice_s32 p32 hp32.1 hp32.2]
  · exact listHeader_tiny nt hnt
  · exact listHeader_s8 n8 hn8.1 hn8.2
  · exact listHeader_s16 n16 hn16.1 hn16.2
  · exact listHeader_s32 n32 hn32.1 hn32.2
  · exact mapHeader_tiny nt hnt
  · exact mapHeader_s8 n8 hn8.1 hn8.2
  · exact mapHeader_s16 n16 hn16.1 hn16.2
  · exact mapHeader_s32 n32 hn32.1 hn32.2
  · exact structHeader_tiny nt hnt
  · exact structHeader_s8 n8 hn8.1 hn8.2
  · exact structHeader_s16 n16 hn16.1 hn16.2
  · exact structHeader_none n32 hn32.1
  · simp only [encode]
    rcases hhd : listHeader xs.length with _ | hd
    · exact absurd hhd (listHeader_ne_none _ hxs)
    · simp
  · simp only [encode]
    rcases hhd : mapHeader ps.length with _ | hd
    · exact absurd hhd (mapHeader_ne_none _ hps)
    · simp
  · simp only [encode]
    rcases hhd : structHeader fs.length with _ | hd
    · exact absurd hhd (structHeader_ne_none _ hfs)
    · simp
  · simp only [encode, structHeader_none _ hfsBig]

/-- Witness for C5 at one representative per size class (65536-element
buffers are `List.replicate`, never evaluated). -/
theorem claim_C5_witness :
    (encodeString []).1 = (0x80 + ([] : List Nat).length) :: [] ∧
    (encodeString (List.replicate 16 0)).1 =
      mStringSize8 :: (List.replicate 16 (0 : Nat)).length :: List.replicate 16 0 ∧
    (encodeString (List.replicate 256 0)).1 =
      mStringSize16 ::
        (beBytes 2 (List.replicate 256 (0 : Nat)).length ++ List.replicate 256 0) ∧
    (encodeString (List.replicate 65536 0)).1 =
      mStringSize32 ::
        (beBytes 4 (List.replicate 65536 (0 : Nat)).length ++ List.replicate 65536 0) ∧
    (encodeByteSlice [1]).1 = mBytesSize8 :: [1].length :: [1] ∧
    (encodeByteSlice (List.replicate 256 0)).1 =
      mBytesSize16 ::
        (beBytes 2 (List.replicate 256 (0 : Nat)).length ++ List.replicate 256 0) ∧
    (encodeByteSlice (List.replicate 65536 0)).1 =
      mBytesSize32 ::
        (beBytes 4 (List.replicate 65536 (0 : Nat)).length ++ List.replicate 65536 0) ∧
    listHeader 0 = some [0x90 + 0] ∧
    listHeader 16 = some [mListSize8, 16] ∧
    listHeader 256 = some (mListSize16 :: beBytes 2 256) ∧
    listHeader 65536 = some (mListSize32 :: beBytes 4 65536) ∧
    mapHeader 0 = some [0xA0 + 0] ∧
    mapHeader 16 = some [mMapSize8, 16] ∧
    mapHeader 256 = some (mMapSize16 :: beBytes 2 256) ∧
    mapHeader 65536 = some (mMapSize32 :: beBytes 4 65536) ∧
    structHeader 0 = some [0xB0 + 0] ∧
    structHeader 16 = some [mStructSize8, 16] ∧
    structHeader 256 = some (mStructSize16 :: beBytes 2 256) ∧
    structHeader 65536 = none ∧
    (encode (.list [])).1 = (listHeader ([] : List Value).length).getD [] ++
      (encodeElems []).1 ∧
    (encode (.map [])).1 = (mapHeader ([] : List (List Nat × Value)).length).getD [] ++
      (encodePairs []).1 ∧
    (encode (.struct 1 [])).1 = (structHeader ([] : List Value).length).getD [] ++
      [1] ++ (encodeElems []).1 ∧
    encode (.struct 1 (List.replicate 65536 Value.null)) = ([], some .valueTooLarge) :=
  claim_C5 [] (List.replicate 16 0) (List.replicate 256 0) (List.replicate 65536 0)
    [1] (List.replicate 256 0) (List.replicate 65536 0) 0 16 256 65536
    [] [] 1 [] (List.replicate 65536 Value.null)
    (by norm_num) (by simp only [List.length_replicate]; norm_num)
    (by simp only [List.length_replicate]; norm_num)
    (by simp only [List.length_replicate]; norm_num) (by norm_num)
    (by simp only [List.length_replicate]; norm_num)
    (by simp only [List.length_replicate]; norm_num)
    (by norm_num) (by norm_num) (by norm_num) (by norm_num)
    (by norm_num) (by norm_num) (by norm_num)
    (by simp only [List.length_replicate]; norm_num)

/-- C7's counterexample: a preexisting sink entry is **not** preserved or
overwritten when a wire entry with an equal key carries a null value — the key
is deleted and ends bound to nothing rather than to its last wire occurrence.
Decoding the one-pair map `{"a": nil}` (tiny marker `A1` already consumed,
payload `81 61 C0`) into the sink `{"a" ↦ 7}` yields the empty map: the key
`"a"` is gone. -/
theorem claim_C7_counterexample :
    unmarshalMapInto 4 [([0x61], .int 7)] 0xA1 false [0x81, 0x61, 0xC0] =
      .ok ([], false, []) ∧
    alookup ([] : List (List Nat × Value)) [0x61] = none := ⟨rfl, rfl⟩

/-- C7 (corrected): decoding a map into a non-nil string-keyed map sink `m0`
(pairwise-distinct keys, as in any Go map) merges with **null-deletes**: the
result is the fold of the per-pair `SetMapIndex` effect `mapStep` over the
wire pairs — a non-null value sets the entry, a null value deletes the key
(the `value` interface is nil, so `reflect.ValueOf` of it is the zero
`reflect.Value`).  Hence after the decode each key maps to the value of its
last wire occurrence when that value is non-null, is **absent** when its last
wire occurrence is null (even if the sink held it before), and keeps its `m0`
value when it never occurs on the wire.  Stated for the tiny and 8-bit-size
map forms over wire pairs whose values hold no null-valued map entry inside
them (`noNullPairsV`; a pair's value may itself be null); the pair loop is
identical for every size class. -/
theorem claim_C7 (ps : List (List Nat × Value)) (hw : wfPairs ps = true)
    (hnn : noNullPairsV ps = true)
    (m0 : List (List Nat × Value)) (hm0 : distinctKeys m0 = true)
    (fuel : Nat) (hf : costPairs ps ≤ fuel)
    (hn : ps.length < 16) (rest : List Nat) :
    (unmarshalMapInto fuel m0 (0xA0 + ps.length) false ((encodePairs ps).1 ++ rest) =
      .ok (ps.foldl (fun m q => mapStep m q.1 q.2) m0, false, rest) ∧
     unmarshalMapInto fuel m0 mMapSize8 false
        (ps.length :: ((encodePairs ps).1 ++ rest)) =
      .ok (ps.foldl (fun m q => mapStep m q.1 q.2) m0, false, rest)) ∧
    ∀ k, alookup (ps.foldl (fun m q => mapStep m q.1 q.2) m0) k =
      lastWireLookup ps m0 k := by
  have he := mapPairs_rt ps hw fuel hf rest m0 [] none
  rw [decImagePairs_eq_mapStep ps hw hnn m0] at he
  refine ⟨⟨?_, ?_⟩, fun k => alookup_foldl_mapStep ps m0 hm0 k⟩
  · unfold unmarshalMapInto
    rw [if_pos (by omega)]
    rw [show 0xA0 + ps.length - 0xA0 = ps.length from by omega]
    exact he
  · unfold unmarshalMapInto
    rw [if_neg (by decide), if_pos rfl]
    rw [readSize_one]
    simp only [ebind_ok]
    exact he

/-- Witness for C7: wire pairs `a↦1, b↦2, a↦nil` (duplicate key `a`, whose
last occurrence is null) decoded into the preexisting sink `c↦9, a↦7`: the
keys `b` and `c` survive, the key `a` is deleted. -/
theorem claim_C7_witness :
    wfPairs [([0x61], .int 1), ([0x62], .int 2), ([0x61], .null)] = true ∧
    noNullPairsV [([0x61], .int 1), ([0x62], .int 2), ([0x61], .null)] = true ∧
    distinctKeys [([0x63], .int 9), ([0x61], .int 7)] = true ∧
    ((unmarshalMapInto 8 [([0x63], .int 9), ([0x61], .int 7)]
        (0xA0 + [([0x61], Value.int 1), ([0x62], .int 2), ([0x61], .null)].length)
        false ((encodePairs [([0x61], .int 1), ([0x62], .int 2), ([0x61], .null)]).1 ++ []) =
      .ok ([([0x61], Value.int 1), ([0x62], .int 2), ([0x61], .null)].foldl
          (fun m q => mapStep m q.1 q.2) [([0x63], .int 9), ([0x61], .int 7)],
        false, []) ∧
     unmarshalMapInto 8 [([0x63], .int 9), ([0x61], .int 7)] mMapSize8 false
        ([([0x61], Value.int 1), ([0x62], .int 2), ([0x61], .null)].length ::
          ((encodePairs [([0x61], .int 1), ([0x62], .int 2), ([0x61], .null)]).1 ++ [])) =
      .ok ([([0x61], Value.int 1), ([0x62], .int 2), ([0x61], .null)].foldl
          (fun m q => mapStep m q.1 q.2) [([0x63], .int 9), ([0x61], .int 7)],
        false, [])) ∧
    ∀ k, alookup ([([0x61], Value.int 1), ([0x62], .int 2), ([0x61], .null)].foldl
        (fun m q => mapStep m q.1 q.2) [([0x63], .int 9), ([0x61], .int 7)]) k =
      lastWireLookup [([0x61], Value.int 1), ([0x62], .int 2), ([0x61], .null)]
        [([0x63], .int 9), ([0x61], .int 7)] k) :=
  ⟨by decide, by decide, by decide,
    claim_C7 [([0x61], .int 1), ([0x62], .int 2), ([0x61], .null)] (by decide)
      (by decide) [([0x63], .int 9), ([0x61], .int 7)] (by decide) 8 (by decide)
      (by decide) []⟩

/-- C8: for an unsigned 64-bit source, `encodeInt` fails with `ValueTooLarge`
exactly when the value exceeds `2⁶³−1` (and then writes nothing); below that
bound it encodes identically to the signed integer of the same magnitude. -/
theorem claim_C8 (u : Nat) (hu : u < 2 ^ 64) :
    (encodeInt (.unsigned u) = ([], some .valueTooLarge) ↔ 2 ^ 63 - 1 < u) ∧
    (u ≤ 2 ^ 63 - 1 → encodeInt (.unsigned u) = encodeInt (.signed (u : Int))) := by
  constructor
  · constructor
    · intro h
      by_contra hc
      push_neg at hc
      rw [encodeInt, if_neg (by omega)] at h
      unfold encodeIntBand at h
      split_ifs at h <;> simp_all
    · intro h
      rw [encodeInt, if_pos h]
  · intro h
    simp only [encodeInt]
    rw [if_neg (by omega)]

/-- Witness for C8: `2⁶³` fails with `ValueTooLarge`; `5` encodes as signed 5. -/
theorem claim_C8_witness :
    encodeInt (.unsigned (2 ^ 63)) = ([], some .valueTooLarge) ∧
      encodeInt (.unsigned 5) = encodeInt (.signed 5) :=
  ⟨(claim_C8 (2 ^ 63) (by norm_num)).1.mpr (by norm_num),
    (claim_C8 5 (by norm_num)).2 (by norm_num)⟩

/-- C9: `Unmarshal(data, v)` with a target `v` that is not a pointer or is a
nil pointer returns `ErrUnMarshalTypeError` for every input, before any read:
the result is independent of the input (second conjunct), so the input
position is unchanged.  This is the guard
`rv.Kind() != reflect.Ptr || rv.IsNil()` in `decodeState.unmarshal`. -/
theorem claim_C9 (t : Target) (ht : t = .notPointer ∨ t = .nilPointer)
    (fuel : Nat) (data : List Nat) :
    unmarshal t fuel data = .error .typeError ∧
      unmarshal t fuel data = unmarshal t fuel [] := by
  rcases ht with rfl | rfl <;> exact ⟨rfl, rfl⟩

/-- Witness for C9 at a non-pointer target and a nonempty input. -/
theorem claim_C9_witness :
    (Target.notPointer = Target.notPointer ∨ Target.notPointer = Target.nilPointer) ∧
    (unmarshal .notPointer 5 [0xC0, 0x2A] = .error .typeError ∧
      unmarshal .notPointer 5 [0xC0, 0x2A] = unmarshal .notPointer 5 []) :=
  ⟨Or.inl rfl, claim_C9 .notPointer (Or.inl rfl) 5 [0xC0, 0x2A]⟩

/-- C10: every top-level `ValueTooLarge` failure (unsigned integer above
`2⁶³−1`, oversized string / byte slice / list / map, struct with more than
`2¹⁶−1` fields) is returned with **no** bytes written to the sink: the
writer-style encoder returns the empty written-bytes list together with the
error, because each size check is the switch condition evaluated before the
first `Write` of marker or size bytes. -/
theorem claim_C10 (u : Nat) (s p : List Nat) (xs : List Value)
    (ps : List (List Nat × Value)) (sig : Nat) (fs : List Value)
    (hu : 2 ^ 63 - 1 < u)
    (hs : 4294967295 < s.length) (hp : 4294967295 < p.length)
    (hxs : 4294967295 < xs.length) (hps : 4294967295 < ps.length)
    (hfs : 65535 < fs.length) :
    encodeInt (.unsigned u) = ([], some .valueTooLarge) ∧
    encode (.str s) = ([], some .valueTooLarge) ∧
    encode (.bytes p) = ([], some .valueTooLarge) ∧
    encode (.list xs) = ([], some .valueTooLarge) ∧
    encode (.map ps) = ([], some .valueTooLarge) ∧
    encode (.struct sig fs) = ([], some .valueTooLarge) := by
  refine ⟨?_, ?_, ?_, ?_, ?_, ?_⟩
  · rw [encodeInt, if_pos (by omega)]
  · show encodeString s = ([], some .valueTooLarge)
    unfold encodeString
    rw [if_neg (by omega), if_neg (by omega), if_neg (by omega), if_neg (by omega)]
  · show encodeByteSlice p = ([], some .valueTooLarge)
    unfold encodeByteSlice
    rw [if_neg (by omega), if_neg (by omega), if_neg (by omega)]
  · simp only [encode, listHeader_none _ hxs]
  · simp only [encode, mapHeader_none _ hps]
  · simp only [encode, structHeader_none _ hfs]

/-- Witness for C10 (the oversized buffers are `List.replicate` terms whose
lengths are computed symbolically). -/
theorem claim_C10_witness :
    encodeInt (.unsigned (2 ^ 63)) = ([], some .valueTooLarge) ∧
    encode (.str (List.replicate (2 ^ 32) 0)) = ([], some .valueTooLarge) ∧
    encode (.bytes (List.replicate (2 ^ 32) 0)) = ([], some .valueTooLarge) ∧
    encode (.list (List.replicate (2 ^ 32) Value.null)) = ([], some .valueTooLarge) ∧
    encode (.map (List.replicate (2 ^ 32) ([], Value.null))) =
      ([], some .valueTooLarge) ∧
    encode (.struct 1 (List.replicate (2 ^ 16) Value.null)) =
      ([], some .valueTooLarge) :=
  claim_C10 (2 ^ 63) (List.replicate (2 ^ 32) 0) (List.replicate (2 ^ 32) 0)
    (List.replicate (2 ^ 32) Value.null) (List.replicate (2 ^ 32) ([], Value.null))
    1 (List.replicate (2 ^ 16) Value.null)
    (by norm_num) (by simp only [List.length_replicate]; norm_num)
    (by simp only [List.length_replicate]; norm_num)
    (by simp only [List.length_replicate]; norm_num)
    (by simp only [List.length_replicate]; norm_num)
    (by simp only [List.length_replicate]; norm_num)

end Packstream
